import Mathlib

/-!
# Verification of the epic-manager orchestration core

Shallow embedding of the epic-manager repository (Python) in Lean 4, together
with proofs of the spec's claims about it.  Each definition mirrors one
function or code path of the source; external collaborators (git, the GitHub
CLI, the automation agent) are modelled as explicit inputs.

Source files embedded here:
* `epic_manager/models.py` — `EpicPlan`, `IssueInfo`, `get_dependency_chains`,
  save/load round trip;
* `epic_manager/review_monitor.py` — `monitor_epic_reviews` poll loop;
* `epic_manager/orchestrator.py` — `start_development` phase loop;
* `epic_manager/workspace_manager.py` — `create_or_reuse_worktree`,
  `cleanup_worktree`;
* `epic_manager/cli.py` — the per-issue body of the `epic cleanup` command;
* `epic_manager/claude_automation.py` — `_validate_workflow_execution`.
-/

namespace EpicManager

/-! ## Data model (`models.py`) -/

/-- `IssueInfo` dataclass from `models.py`.  Field for field; `worktree_path`
and `pr_number` are `Optional` in the source. -/
structure IssueInfo where
  number : Nat
  title : String
  status : String
  dependencies : List Nat
  base_branch : String
  worktree_path : Option String := none
  pr_number : Option Nat := none
  deriving DecidableEq, Repr

/-- `EpicInfo` dataclass from `models.py`.  The Python field `instance` is a
Lean keyword, so it is called `instance_name` here. -/
structure EpicInfo where
  number : Nat
  title : String
  repo : String
  instance_name : String
  deriving DecidableEq, Repr

/-- `EpicPlan` dataclass from `models.py`.  The Python `Dict[str, List[int]]`
for `parallelization` is modelled as an association list in insertion order
(Python dicts preserve insertion order). -/
structure EpicPlan where
  epic : EpicInfo
  issues : List IssueInfo
  parallelization : List (String × List Nat)
  deriving DecidableEq, Repr

/-! ## Dependency resolver (`EpicPlan.get_dependency_chains`) -/

/-- The `children` dict built at the top of `get_dependency_chains`:
`children[dep]` is the list of issue numbers whose `dependencies` contain
`dep`, in issue-list order (the Python loop appends in that order). -/
def childrenOf (issues : List IssueInfo) (dep : Nat) : List Nat :=
  (issues.filter (fun i => decide (dep ∈ i.dependencies))).map (·.number)

/-- The `has_parent` set of `get_dependency_chains`: numbers of issues with a
non-empty dependency list. -/
def hasParent (issues : List IssueInfo) : List Nat :=
  (issues.filter (fun i => !i.dependencies.isEmpty)).map (·.number)

/-- The `roots` list of `get_dependency_chains`: issue numbers not in
`has_parent`, in issue-list order. -/
def rootsOf (issues : List IssueInfo) : List Nat :=
  (issues.filter (fun i => decide (i.number ∉ hasParent issues))).map (·.number)

/-- The set of issue numbers of a plan's issue list. -/
def issueNumbers (issues : List IssueInfo) : Finset Nat :=
  (issues.map (·.number)).toFinset

/-- The `while stack:` loop of `build_chain`: pops the queue front
(`stack.pop(0)`), skips already-visited entries, otherwise marks the entry
visited, appends it to the chain and enqueues its not-yet-visited children in
ascending order (`sorted(children[current])`).  The proof argument `hq` only
records that every queued number is an issue number (true at every call site);
it is used for termination. -/
def bfsLoop (issues : List IssueInfo) :
    (queue : List Nat) → (∀ x ∈ queue, x ∈ issueNumbers issues) →
    (visited : Finset Nat) → (chain : List Nat) → List Nat × Finset Nat
  | [], _, visited, chain => (chain, visited)
  | current :: rest, hq, visited, chain =>
    if hcur : current ∈ visited then
      bfsLoop issues rest (fun x hx => hq x (List.mem_cons_of_mem _ hx)) visited chain
    else
      bfsLoop issues
        (rest ++ ((childrenOf issues current).mergeSort (· ≤ ·)).filter
          (fun c => decide (c ∉ insert current visited)))
        (fun x hx => by
          rcases List.mem_append.mp hx with h | h
          · exact hq x (List.mem_cons_of_mem _ h)
          · have hc := List.mem_filter.mp h
            have : x ∈ childrenOf issues current := by
              have := hc.1
              rwa [List.mem_mergeSort] at this
            rcases List.mem_map.mp this with ⟨i, hi, hxi⟩
            subst hxi
            exact List.mem_toFinset.mpr
              (List.mem_map.mpr ⟨i, (List.mem_filter.mp hi).1, rfl⟩))
        (insert current visited) (chain ++ [current])
termination_by queue _ visited _ =>
  ((issueNumbers issues \ visited).card) * (issues.length + 1) + queue.length
decreasing_by
  · simp only [List.length_cons]
    omega
  · have hcu : current ∈ issueNumbers issues := hq current (List.mem_cons_self _ _)
    have hcard : ((issueNumbers issues \ insert current visited).card) + 1 ≤
        (issueNumbers issues \ visited).card := by
      have hss : issueNumbers issues \ insert current visited ⊂
          issueNumbers issues \ visited := by
        refine Finset.ssubset_iff_of_subset ?_ |>.mpr ⟨current, ?_, ?_⟩
        · exact Finset.sdiff_subset_sdiff le_rfl (Finset.subset_insert _ _)
        · exact Finset.mem_sdiff.mpr ⟨hcu, hcur⟩
        · simp
      exact Finset.card_lt_card hss
    have hlen : (((childrenOf issues current).mergeSort (· ≤ ·)).filter
        (fun c => decide (c ∉ insert current visited))).length ≤ issues.length := by
      calc (((childrenOf issues current).mergeSort (· ≤ ·)).filter
              (fun c => decide (c ∉ insert current visited))).length
          ≤ ((childrenOf issues current).mergeSort (· ≤ ·)).length :=
            List.length_filter_le _ _
        _ = (childrenOf issues current).length := List.length_mergeSort _
        _ ≤ issues.length := by
            simp only [childrenOf, List.length_map]
            exact List.length_filter_le _ _
    simp only [List.length_append, List.length_cons]
    have hmul : ((issueNumbers issues \ insert current visited).card + 1) *
        (issues.length + 1) ≤
        (issueNumbers issues \ visited).card * (issues.length + 1) :=
      Nat.mul_le_mul_right _ hcard
    rw [Nat.succ_mul] at hmul
    omega

/-- Helper: every root number is an issue number. -/
theorem rootsOf_subset_issueNumbers (issues : List IssueInfo) :
    ∀ x ∈ rootsOf issues, x ∈ issueNumbers issues := by
  intro x hx
  rcases List.mem_map.mp hx with ⟨i, hi, hxi⟩
  subst hxi
  exact List.mem_toFinset.mpr (List.mem_map.mpr ⟨i, (List.mem_filter.mp hi).1, rfl⟩)

/-- The `for root in sorted(roots):` loop of `get_dependency_chains`: skips
roots already visited by an earlier chain, otherwise builds a chain with
`build_chain` and appends it when non-empty (`if chain:`). -/
def chainsLoop (issues : List IssueInfo) :
    (roots : List Nat) → (∀ x ∈ roots, x ∈ issueNumbers issues) →
    (visited : Finset Nat) → (chains : List (List Nat)) →
    List (List Nat) × Finset Nat
  | [], _, visited, chains => (chains, visited)
  | root :: rest, hr, visited, chains =>
    if root ∈ visited then
      chainsLoop issues rest (fun x hx => hr x (List.mem_cons_of_mem _ hx)) visited chains
    else
      match bfsLoop issues [root]
        (fun x hx => by
          rcases List.mem_singleton.mp hx with rfl
          exact hr x (List.mem_cons_self _ _)) visited [] with
      | (chain, visited') =>
        chainsLoop issues rest (fun x hx => hr x (List.mem_cons_of_mem _ hx)) visited'
          (if chain.isEmpty then chains else chains ++ [chain])

/-- `EpicPlan.get_dependency_chains` from `models.py`: builds the children
map, finds the roots, and traverses each root's chain breadth-first, roots
and children in ascending numeric order. -/
def EpicPlan.get_dependency_chains (plan : EpicPlan) : List (List Nat) :=
  (chainsLoop plan.issues ((rootsOf plan.issues).mergeSort (· ≤ ·))
    (fun x hx => rootsOf_subset_issueNumbers plan.issues x
      ((List.mem_mergeSort).mp hx)) ∅ []).1

/-- Spec §4.1 worked example, used as a sanity check: dependencies 582→581,
583→582, 585→584 give chains `[[581, 582, 583], [584, 585]]`. -/
example :
    (EpicPlan.get_dependency_chains
      { epic := { number := 1, title := "", repo := "", instance_name := "" }
        issues :=
          [ { number := 581, title := "", status := "pending", dependencies := [],
              base_branch := "main" },
            { number := 582, title := "", status := "pending", dependencies := [581],
              base_branch := "issue-581" },
            { number := 583, title := "", status := "pending", dependencies := [582],
              base_branch := "issue-582" },
            { number := 584, title := "", status := "pending", dependencies := [],
              base_branch := "main" },
            { number := 585, title := "", status := "pending", dependencies := [584],
              base_branch := "issue-584" } ]
        parallelization := [] }) = [[581, 582, 583], [584, 585]] := by
  simp [EpicPlan.get_dependency_chains, chainsLoop, bfsLoop, childrenOf, hasParent,
    rootsOf, issueNumbers, List.mergeSort]

/-- `build_chain` appends exactly the newly visited numbers to the chain:
the output chain extends the input chain by a duplicate-free list `t` of
numbers that were not yet visited, and the output visited set is the input
visited set united with `t`. -/
theorem bfsLoop_delta (issues : List IssueInfo) (queue : List Nat)
    (hq : ∀ x ∈ queue, x ∈ issueNumbers issues) (visited : Finset Nat)
    (chain : List Nat) :
    ∃ t : List Nat,
      (bfsLoop issues queue hq visited chain).1 = chain ++ t ∧
      t.Nodup ∧ (∀ x ∈ t, x ∉ visited) ∧
      (bfsLoop issues queue hq visited chain).2 = visited ∪ t.toFinset := by
  induction queue, hq, visited, chain using bfsLoop.induct issues with
  | case1 h visited chain h2 =>
      exact ⟨[], by simp [bfsLoop]⟩
  | case2 current rest hq visited chain hcur h2 ih =>
      rw [bfsLoop]
      simp only [dif_pos hcur]
      exact ih
  | case3 current rest hq visited chain hcur h2 ih =>
      rw [bfsLoop]
      simp only [dif_neg hcur]
      obtain ⟨t, h1, h2, h3, h4⟩ := ih
      refine ⟨current :: t, ?_, ?_, ?_, ?_⟩
      · simpa using h1
      · refine List.nodup_cons.mpr ⟨fun hct => ?_, h2⟩
        exact (h3 current hct) (Finset.mem_insert_self _ _)
      · intro x hx
        rcases List.mem_cons.mp hx with rfl | hx
        · exact hcur
        · exact fun hxv => (h3 x hx) (Finset.mem_insert_of_mem hxv)
      · rw [h4]
        ext y
        simp [Finset.mem_insert, Finset.mem_union]

/-- The visited set only grows during `build_chain`. -/
theorem bfsLoop_visited_mono (issues : List IssueInfo) (queue : List Nat)
    (hq : ∀ x ∈ queue, x ∈ issueNumbers issues) (visited : Finset Nat)
    (chain : List Nat) :
    visited ⊆ (bfsLoop issues queue hq visited chain).2 := by
  obtain ⟨t, _, _, _, h4⟩ := bfsLoop_delta issues queue hq visited chain
  rw [h4]
  exact Finset.subset_union_left

/-- Every number on the queue is visited by the time `build_chain` returns:
it is popped eventually, and a popped number is either freshly visited or was
visited already. -/
theorem bfsLoop_queue_absorbed (issues : List IssueInfo) (queue : List Nat)
    (hq : ∀ x ∈ queue, x ∈ issueNumbers issues) (visited : Finset Nat)
    (chain : List Nat) :
    ∀ x ∈ queue, x ∈ (bfsLoop issues queue hq visited chain).2 := by
  induction queue, hq, visited, chain using bfsLoop.induct issues with
  | case1 h visited chain h2 =>
      intro x hx
      exact absurd hx (List.not_mem_nil x)
  | case2 current rest hq visited chain hcur h2 ih =>
      rw [bfsLoop]
      simp only [dif_pos hcur]
      intro x hx
      rcases List.mem_cons.mp hx with rfl | hx
      · exact bfsLoop_visited_mono issues rest _ visited chain hcur
      · exact ih x hx
  | case3 current rest hq visited chain hcur h2 ih =>
      rw [bfsLoop]
      simp only [dif_neg hcur]
      intro x hx
      rcases List.mem_cons.mp hx with rfl | hx
      · exact bfsLoop_visited_mono issues _ _ _ _ (Finset.mem_insert_self x visited)
      · exact ih x (List.mem_append_left _ hx)

/-- Children of a number visited during a `build_chain` call are themselves
visited by the time the call returns: they are enqueued at the moment their
parent is visited (or were visited already). -/
theorem bfsLoop_children_closure (issues : List IssueInfo) (queue : List Nat)
    (hq : ∀ x ∈ queue, x ∈ issueNumbers issues) (visited : Finset Nat)
    (chain : List Nat) :
    ∀ x, x ∈ (bfsLoop issues queue hq visited chain).2 → x ∉ visited →
      ∀ c ∈ childrenOf issues x, c ∈ (bfsLoop issues queue hq visited chain).2 := by
  induction queue, hq, visited, chain using bfsLoop.induct issues with
  | case1 h visited chain h2 =>
      intro x hx hnx
      rw [bfsLoop] at hx
      exact absurd hx hnx
  | case2 current rest hq visited chain hcur h2 ih =>
      rw [bfsLoop]
      simp only [dif_pos hcur]
      exact ih
  | case3 current rest hq visited chain hcur h2 ih =>
      rw [bfsLoop]
      simp only [dif_neg hcur]
      intro x hx hnx c hc
      by_cases hxc : x = current
      · subst hxc
        by_cases hcin : c ∈ insert x visited
        · exact bfsLoop_visited_mono issues _ _ _ _ hcin
        · refine bfsLoop_queue_absorbed issues _ _ _ _ c (List.mem_append_right _ ?_)
          refine List.mem_filter.mpr ⟨?_, by simpa using hcin⟩
          rw [List.mem_mergeSort]
          exact hc
      · exact ih x hx (fun hmem => by
          rcases Finset.mem_insert.mp hmem with h | h
          · exact hxc h
          · exact hnx h) c hc

/-- The visited set stays inside the plan's issue numbers. -/
theorem bfsLoop_visited_subset (issues : List IssueInfo) (queue : List Nat)
    (hq : ∀ x ∈ queue, x ∈ issueNumbers issues) (visited : Finset Nat)
    (chain : List Nat) (hv : visited ⊆ issueNumbers issues) :
    (bfsLoop issues queue hq visited chain).2 ⊆ issueNumbers issues := by
  induction queue, hq, visited, chain using bfsLoop.induct issues with
  | case1 h visited chain h2 =>
      rw [bfsLoop]
      exact hv
  | case2 current rest hq visited chain hcur h2 ih =>
      rw [bfsLoop]
      simp only [dif_pos hcur]
      exact ih hv
  | case3 current rest hq visited chain hcur h2 ih =>
      rw [bfsLoop]
      simp only [dif_neg hcur]
      exact ih (Finset.insert_subset (hq current (List.mem_cons_self _ _)) hv)

/-- Every number visited by a `build_chain` call was already visited, sat on
the initial queue, or is a child of a number visited by the call. -/
theorem bfsLoop_parent_closure (issues : List IssueInfo) (queue : List Nat)
    (hq : ∀ x ∈ queue, x ∈ issueNumbers issues) (visited : Finset Nat)
    (chain : List Nat) :
    ∀ x ∈ (bfsLoop issues queue hq visited chain).2,
      x ∈ visited ∨ x ∈ queue ∨
      ∃ d ∈ (bfsLoop issues queue hq visited chain).2, x ∈ childrenOf issues d := by
  induction queue, hq, visited, chain using bfsLoop.induct issues with
  | case1 h visited chain h2 =>
      intro x hx
      rw [bfsLoop] at hx
      exact Or.inl hx
  | case2 current rest hq visited chain hcur h2 ih =>
      rw [bfsLoop]
      simp only [dif_pos hcur]
      intro x hx
      rcases ih x hx with h | h | h
      · exact Or.inl h
      · exact Or.inr (Or.inl (List.mem_cons_of_mem _ h))
      · exact Or.inr (Or.inr h)
  | case3 current rest hq visited chain hcur h2 ih =>
      rw [bfsLoop]
      simp only [dif_neg hcur]
      intro x hx
      rcases ih x hx with h | h | h
      · rcases Finset.mem_insert.mp h with rfl | h
        · exact Or.inr (Or.inl (List.mem_cons_self _ _))
        · exact Or.inl h
      · rcases List.mem_append.mp h with h | h
        · exact Or.inr (Or.inl (List.mem_cons_of_mem _ h))
        · refine Or.inr (Or.inr ⟨current, ?_, ?_⟩)
          · exact bfsLoop_visited_mono issues _ _ _ _ (Finset.mem_insert_self _ _)
          · have := (List.mem_filter.mp h).1
            rwa [List.mem_mergeSort] at this
      · exact Or.inr (Or.inr h)

/-- Parent-before-child order within a chain: wherever an issue number `x`
occurs in the list, every dependency of the issue carrying that number occurs
strictly earlier. -/
def ChainOrdered (issues : List IssueInfo) (l : List Nat) : Prop :=
  ∀ l₁ x l₂, l = l₁ ++ x :: l₂ → ∀ i ∈ issues, i.number = x →
    ∀ d ∈ i.dependencies, d ∈ l₁

/-- Reversed form of `ChainOrdered`, convenient for induction: dependencies
of an element occur strictly later in the reversed list. -/
def ChainOrdRev (issues : List IssueInfo) (l : List Nat) : Prop :=
  ∀ l₁ x l₂, l = l₁ ++ x :: l₂ → ∀ i ∈ issues, i.number = x →
    ∀ d ∈ i.dependencies, d ∈ l₂

theorem chainOrdRev_nil (issues : List IssueInfo) : ChainOrdRev issues [] := by
  intro l₁ x l₂ h
  exact absurd h (by simp)

theorem chainOrdRev_cons (issues : List IssueInfo) (y : Nat) (l : List Nat)
    (hy : ∀ i ∈ issues, i.number = y → ∀ d ∈ i.dependencies, d ∈ l)
    (hl : ChainOrdRev issues l) : ChainOrdRev issues (y :: l) := by
  intro l₁ x l₂ hdec i hi hix d hd
  match l₁, hdec with
  | [], hdec =>
      obtain ⟨rfl, rfl⟩ : y = x ∧ l = l₂ := by
        constructor <;> [exact (List.cons.injEq _ _ _ _ ▸ hdec).1;
          exact (List.cons.injEq _ _ _ _ ▸ hdec).2]
      exact hy i hi hix d hd
  | a :: l₁', hdec =>
      have h2 : l = l₁' ++ x :: l₂ := (List.cons.injEq _ _ _ _ ▸ hdec).2
      exact hl l₁' x l₂ h2 i hi hix d hd

theorem chainOrdered_of_rev (issues : List IssueInfo) (l : List Nat)
    (h : ChainOrdRev issues l.reverse) : ChainOrdered issues l := by
  intro l₁ x l₂ hdec i hi hix d hd
  have hrev : l.reverse = l₂.reverse ++ x :: l₁.reverse := by
    rw [hdec]
    simp
  have := h l₂.reverse x l₁.reverse hrev i hi hix d hd
  exact List.mem_reverse.mp this

/-- With distinct issue numbers, an issue is determined by its number. -/
theorem issue_eq_of_number_eq (issues : List IssueInfo)
    (hnodup : (issues.map (·.number)).Nodup) :
    ∀ i ∈ issues, ∀ j ∈ issues, i.number = j.number → i = j := by
  intro i hi j hj hij
  exact List.inj_on_of_nodup_map hnodup hi hj hij

/-- Ordering invariant of `build_chain`: if the chain built so far is
parent-before-child ordered and every queued number's dependencies already
sit on the chain, the resulting chain is parent-before-child ordered.  Needs
single-parent plans (`dependencies.length ≤ 1`) with distinct numbers: a
child is enqueued by its unique parent after the parent joined the chain. -/
theorem bfsLoop_ordered (issues : List IssueInfo)
    (hnodup : (issues.map (·.number)).Nodup)
    (hdeps1 : ∀ i ∈ issues, i.dependencies.length ≤ 1)
    (queue : List Nat) (hq : ∀ x ∈ queue, x ∈ issueNumbers issues)
    (visited : Finset Nat) (chain : List Nat)
    (hrev : ChainOrdRev issues chain.reverse)
    (hqd : ∀ x ∈ queue, ∀ i ∈ issues, i.number = x → ∀ d ∈ i.dependencies, d ∈ chain) :
    ChainOrdRev issues ((bfsLoop issues queue hq visited chain).1).reverse := by
  induction queue, hq, visited, chain using bfsLoop.induct issues with
  | case1 h visited chain h2 =>
      rw [bfsLoop]
      exact hrev
  | case2 current rest hq visited chain hcur h2 ih =>
      rw [bfsLoop]
      simp only [dif_pos hcur]
      exact ih hrev (fun x hx => hqd x (List.mem_cons_of_mem _ hx))
  | case3 current rest hq visited chain hcur h2 ih =>
      rw [bfsLoop]
      simp only [dif_neg hcur]
      refine ih ?_ ?_
      · rw [List.reverse_append]
        simp only [List.reverse_cons, List.reverse_nil, List.nil_append,
          List.singleton_append]
        exact chainOrdRev_cons issues current chain.reverse
          (fun i hi hix d hd => List.mem_reverse.mpr
            (hqd current (List.mem_cons_self _ _) i hi hix d hd)) hrev
      · intro x hx i hi hix d hd
        rcases List.mem_append.mp hx with hx | hx
        · exact List.mem_append_left _ (hqd x (List.mem_cons_of_mem _ hx) i hi hix d hd)
        · -- `x` is a child of `current`, so its unique dependency is `current`.
          have hxc : x ∈ childrenOf issues current := by
            have := (List.mem_filter.mp hx).1
            rwa [List.mem_mergeSort] at this
          rcases List.mem_map.mp hxc with ⟨j, hj, hjx⟩
          have hj' := List.mem_filter.mp hj
          have hcurj : current ∈ j.dependencies := by
            have := hj'.2
            simpa using this
          have hij : i = j := by
            apply issue_eq_of_number_eq issues hnodup i hi j hj'.1
            rw [hix, hjx]
          subst hij
          have hdeps : i.dependencies = [current] := by
            rcases hdep : i.dependencies with _ | ⟨a, rest'⟩
            · rw [hdep] at hcurj
              exact absurd hcurj (List.not_mem_nil _)
            · have hlen := hdeps1 i hi
              rw [hdep] at hlen
              simp only [List.length_cons] at hlen
              have : rest' = [] := List.eq_nil_of_length_eq_zero (by omega)
              subst this
              rw [hdep] at hcurj
              rcases List.mem_singleton.mp hcurj with rfl
              rfl
          rw [hdeps] at hd
          rcases List.mem_singleton.mp hd with rfl
          exact List.mem_append_right _ (List.mem_singleton.mpr rfl)

/-- The chain loop appends chains whose concatenation is exactly the set of
newly visited numbers, without duplicates. -/
theorem chainsLoop_delta (issues : List IssueInfo) (roots : List Nat)
    (hr : ∀ x ∈ roots, x ∈ issueNumbers issues) (visited : Finset Nat)
    (chains : List (List Nat)) :
    ∃ nc : List (List Nat),
      (chainsLoop issues roots hr visited chains).1 = chains ++ nc ∧
      nc.flatten.Nodup ∧ (∀ x ∈ nc.flatten, x ∉ visited) ∧
      (chainsLoop issues roots hr visited chains).2 = visited ∪ nc.flatten.toFinset := by
  induction roots, hr, visited, chains using chainsLoop.induct issues with
  | case1 h visited chains h2 =>
      exact ⟨[], by simp [chainsLoop]⟩
  | case2 root rest hr visited chains hroot h2 ih =>
      rw [chainsLoop]
      simp only [if_pos hroot]
      exact ih
  | case3 root rest hr visited chains hroot chain visited' heq h2 ih =>
      rw [chainsLoop]
      simp only [if_neg hroot, heq]
      obtain ⟨t, ht1, ht2, ht3, ht4⟩ := bfsLoop_delta issues [root]
        (fun x hx => by
          rcases List.mem_singleton.mp hx with rfl
          exact hr x (List.mem_cons_self _ _)) visited []
      rw [heq] at ht1 ht4
      simp only [List.nil_append] at ht1
      subst ht1
      have hveq : visited' = visited ∪ chain.toFinset := by simpa using ht4
      obtain ⟨nc', hn1, hn2, hn3, hn4⟩ := ih
      by_cases hte : chain = []
      · subst hte
        simp only [List.isEmpty_nil, if_pos] at hn1 hn4 ⊢
        have hveq' : visited' = visited := by simpa using hveq
        subst hveq'
        exact ⟨nc', hn1, hn2, hn3, by simpa using hn4⟩
      · have hne : chain.isEmpty = false := by
          simpa [List.isEmpty_iff] using hte
        simp only [hne, Bool.false_eq_true, if_neg] at hn1 hn4 ⊢
        refine ⟨chain :: nc', ?_, ?_, ?_, ?_⟩
        · rw [hn1]
          simp
        · simp only [List.flatten_cons]
          refine List.Nodup.append ht2 hn2 ?_
          intro x hxt hxn
          have := hn3 x hxn
          rw [hveq] at this
          exact this (Finset.mem_union_right _ (List.mem_toFinset.mpr hxt))
        · intro x hx
          simp only [List.flatten_cons, List.mem_append] at hx
          rcases hx with hx | hx
          · exact ht3 x hx
          · intro hxv
            have := hn3 x hx
            rw [hveq] at this
            exact this (Finset.mem_union_left _ hxv)
        · rw [hn4, hveq]
          ext y
          simp only [Finset.mem_union, List.mem_toFinset, List.flatten_cons,
            List.mem_append]
          tauto

/-- The visited set only grows across the chain loop. -/
theorem chainsLoop_visited_mono (issues : List IssueInfo) (roots : List Nat)
    (hr : ∀ x ∈ roots, x ∈ issueNumbers issues) (visited : Finset Nat)
    (chains : List (List Nat)) :
    visited ⊆ (chainsLoop issues roots hr visited chains).2 := by
  obtain ⟨nc, _, _, _, h4⟩ := chainsLoop_delta issues roots hr visited chains
  rw [h4]
  exact Finset.subset_union_left

/-- Every root handed to the chain loop is visited when the loop finishes. -/
theorem chainsLoop_roots_visited (issues : List IssueInfo) (roots : List Nat)
    (hr : ∀ x ∈ roots, x ∈ issueNumbers issues) (visited : Finset Nat)
    (chains : List (List Nat)) :
    ∀ r ∈ roots, r ∈ (chainsLoop issues roots hr visited chains).2 := by
  induction roots, hr, visited, chains using chainsLoop.induct issues with
  | case1 h visited chains h2 =>
      intro r hr'
      exact absurd hr' (List.not_mem_nil r)
  | case2 root rest hr visited chains hroot h2 ih =>
      rw [chainsLoop]
      simp only [if_pos hroot]
      intro r hr'
      rcases List.mem_cons.mp hr' with rfl | hr'
      · exact chainsLoop_visited_mono issues rest _ visited chains hroot
      · exact ih r hr'
  | case3 root rest hr visited chains hroot chain visited' heq h2 ih =>
      rw [chainsLoop]
      simp only [if_neg hroot, heq]
      have hrootv : root ∈ visited' := by
        have := bfsLoop_queue_absorbed issues [root]
          (fun x hx => by
            rcases List.mem_singleton.mp hx with rfl
            exact hr x (List.mem_cons_self _ _)) visited [] root
          (List.mem_singleton.mpr rfl)
        rwa [heq] at this
      intro r hr'
      rcases List.mem_cons.mp hr' with rfl | hr'
      · exact chainsLoop_visited_mono issues rest _ visited' _ hrootv
      · exact ih r hr'

/-- If the visited set is closed under the children map when the chain loop
starts, it is closed when the loop finishes. -/
theorem chainsLoop_closed (issues : List IssueInfo) (roots : List Nat)
    (hr : ∀ x ∈ roots, x ∈ issueNumbers issues) (visited : Finset Nat)
    (chains : List (List Nat))
    (hcl : ∀ x ∈ visited, ∀ c ∈ childrenOf issues x, c ∈ visited) :
    ∀ x ∈ (chainsLoop issues roots hr visited chains).2,
      ∀ c ∈ childrenOf issues x, c ∈ (chainsLoop issues roots hr visited chains).2 := by
  induction roots, hr, visited, chains using chainsLoop.induct issues with
  | case1 h visited chains h2 =>
      rw [chainsLoop]
      exact hcl
  | case2 root rest hr visited chains hroot h2 ih =>
      rw [chainsLoop]
      simp only [if_pos hroot]
      exact ih hcl
  | case3 root rest hr visited chains hroot chain visited' heq h2 ih =>
      rw [chainsLoop]
      simp only [if_neg hroot, heq]
      refine ih ?_
      intro x hx c hc
      by_cases hxv : x ∈ visited
      · have : c ∈ visited := hcl x hxv c hc
        have hmono := bfsLoop_visited_mono issues [root]
          (fun x hx => by
            rcases List.mem_singleton.mp hx with rfl
            exact hr x (List.mem_cons_self _ _)) visited []
        rw [heq] at hmono
        exact hmono this
      · have hclo := bfsLoop_children_closure issues [root]
          (fun x hx => by
            rcases List.mem_singleton.mp hx with rfl
            exact hr x (List.mem_cons_self _ _)) visited [] x
        rw [heq] at hclo
        exact hclo hx hxv c hc

/-- The visited set stays inside the plan's issue numbers across the chain
loop. -/
theorem chainsLoop_visited_subset (issues : List IssueInfo) (roots : List Nat)
    (hr : ∀ x ∈ roots, x ∈ issueNumbers issues) (visited : Finset Nat)
    (chains : List (List Nat)) (hv : visited ⊆ issueNumbers issues) :
    (chainsLoop issues roots hr visited chains).2 ⊆ issueNumbers issues := by
  induction roots, hr, visited, chains using chainsLoop.induct issues with
  | case1 h visited chains h2 =>
      rw [chainsLoop]
      exact hv
  | case2 root rest hr visited chains hroot h2 ih =>
      rw [chainsLoop]
      simp only [if_pos hroot]
      exact ih hv
  | case3 root rest hr visited chains hroot chain visited' heq h2 ih =>
      rw [chainsLoop]
      simp only [if_neg hroot, heq]
      refine ih ?_
      have := bfsLoop_visited_subset issues [root]
        (fun x hx => by
          rcases List.mem_singleton.mp hx with rfl
          exact hr x (List.mem_cons_self _ _)) visited [] hv
      rwa [heq] at this

/-- Every number visited by the chain loop was already visited, is one of the
roots, or is a child of a visited number. -/
theorem chainsLoop_parent_closure (issues : List IssueInfo) (roots : List Nat)
    (hr : ∀ x ∈ roots, x ∈ issueNumbers issues) (visited : Finset Nat)
    (chains : List (List Nat)) :
    ∀ x ∈ (chainsLoop issues roots hr visited chains).2,
      x ∈ visited ∨ x ∈ roots ∨
      ∃ d ∈ (chainsLoop issues roots hr visited chains).2, x ∈ childrenOf issues d := by
  induction roots, hr, visited, chains using chainsLoop.induct issues with
  | case1 h visited chains h2 =>
      intro x hx
      rw [chainsLoop] at hx
      exact Or.inl hx
  | case2 root rest hr visited chains hroot h2 ih =>
      rw [chainsLoop]
      simp only [if_pos hroot]
      intro x hx
      rcases ih x hx with h | h | h
      · exact Or.inl h
      · exact Or.inr (Or.inl (List.mem_cons_of_mem _ h))
      · exact Or.inr (Or.inr h)
  | case3 root rest hr visited chains hroot chain visited' heq h2 ih =>
      rw [chainsLoop]
      simp only [if_neg hroot, heq]
      intro x hx
      rcases ih x hx with h | h | h
      · -- `x` entered during this root's BFS: unfold the BFS parent closure.
        have hpc := bfsLoop_parent_closure issues [root]
          (fun x hx => by
            rcases List.mem_singleton.mp hx with rfl
            exact hr x (List.mem_cons_self _ _)) visited []
        rw [heq] at hpc
        rcases hpc x h with h' | h' | h'
        · exact Or.inl h'
        · rcases List.mem_singleton.mp h' with rfl
          exact Or.inr (Or.inl (List.mem_cons_self _ _))
        · obtain ⟨d, hd1, hd2⟩ := h'
          refine Or.inr (Or.inr ⟨d, ?_, hd2⟩)
          exact chainsLoop_visited_mono issues rest _ visited' _ hd1
      · exact Or.inr (Or.inl (List.mem_cons_of_mem _ h))
      · exact Or.inr (Or.inr h)

/-- An issue whose number qualifies as a root has no dependencies: otherwise
it would itself put its number into `has_parent`. -/
theorem rootsOf_deps_empty (issues : List IssueInfo) :
    ∀ r ∈ rootsOf issues, ∀ i ∈ issues, i.number = r → i.dependencies = [] := by
  intro r hrr i hi hir
  rcases List.mem_map.mp hrr with ⟨j, hj, hjr⟩
  have hcond := (List.mem_filter.mp hj).2
  rw [decide_eq_true_eq] at hcond
  by_contra hne
  refine hcond ?_
  rw [hjr, ← hir]
  exact List.mem_map.mpr ⟨i, List.mem_filter.mpr
    ⟨hi, by simpa [List.isEmpty_iff] using hne⟩, rfl⟩

/-- All chains produced by the chain loop are parent-before-child ordered,
provided the incoming chains are, every root has no dependencies, and the
plan is single-parent with distinct numbers. -/
theorem chainsLoop_ordered (issues : List IssueInfo)
    (hnodup : (issues.map (·.number)).Nodup)
    (hdeps1 : ∀ i ∈ issues, i.dependencies.length ≤ 1)
    (roots : List Nat) (hr : ∀ x ∈ roots, x ∈ issueNumbers issues)
    (hrda : ∀ r ∈ roots, ∀ i ∈ issues, i.number = r → i.dependencies = [])
    (visited : Finset Nat) (chains : List (List Nat))
    (hprev : ∀ ch ∈ chains, ChainOrdered issues ch) :
    ∀ ch ∈ (chainsLoop issues roots hr visited chains).1, ChainOrdered issues ch := by
  induction roots, hr, visited, chains using chainsLoop.induct issues with
  | case1 h visited chains h2 =>
      rw [chainsLoop]
      exact hprev
  | case2 root rest hr visited chains hroot h2 ih =>
      rw [chainsLoop]
      simp only [if_pos hroot]
      exact ih (fun r hr' => hrda r (List.mem_cons_of_mem _ hr')) hprev
  | case3 root rest hr visited chains hroot chain visited' heq h2 ih =>
      rw [chainsLoop]
      simp only [if_neg hroot, heq]
      have hord : ChainOrdered issues chain := by
        have := bfsLoop_ordered issues hnodup hdeps1 [root]
          (fun x hx => by
            rcases List.mem_singleton.mp hx with rfl
            exact hr x (List.mem_cons_self _ _)) visited []
          (by
            rw [List.reverse_nil]
            exact chainOrdRev_nil issues)
          (by
            intro x hx i hi hix d hd
            rcases List.mem_singleton.mp hx with rfl
            rw [hrda x (List.mem_cons_self _ _) i hi hix] at hd
            exact absurd hd (List.not_mem_nil d))
        rw [heq] at this
        exact chainOrdered_of_rev issues chain this
      refine ih (fun r hr' => hrda r (List.mem_cons_of_mem _ hr')) ?_
      intro ch hch
      by_cases hte : chain.isEmpty
      · rw [if_pos hte] at hch
        exact hprev ch hch
      · rw [if_neg hte] at hch
        rcases List.mem_append.mp hch with hch | hch
        · exact hprev ch hch
        · rcases List.mem_singleton.mp hch with rfl
          exact hord

/-- The dependency graph of an issue list is a forest: issue numbers are
distinct, every issue has at most one dependency, every referenced dependency
is an issue number, and the parent relation is acyclic (witnessed by a rank
function that strictly increases from dependency to dependent). -/
def IsForest (issues : List IssueInfo) : Prop :=
  (issues.map (·.number)).Nodup ∧
  (∀ i ∈ issues, i.dependencies.length ≤ 1) ∧
  (∀ i ∈ issues, ∀ d ∈ i.dependencies, d ∈ issues.map (·.number)) ∧
  ∃ rank : Nat → Nat, ∀ i ∈ issues, ∀ d ∈ i.dependencies, rank d < rank i.number

/-- C1: for every plan whose dependency graph is a forest (distinct issue
numbers, at most one dependency per issue, every referenced dependency
present, no dependency cycle), the chains returned by
`EpicPlan.get_dependency_chains` partition the issue numbers — their
concatenation is a permutation of the issue-number list, so every issue
appears in exactly one chain, none duplicated or omitted — and within each
chain every issue appears strictly after each of its dependencies. -/
theorem c1_resolver_chains_partition (plan : EpicPlan) (hf : IsForest plan.issues) :
    plan.get_dependency_chains.flatten.Perm (plan.issues.map (·.number)) ∧
    ∀ ch ∈ plan.get_dependency_chains, ChainOrdered plan.issues ch := by
  obtain ⟨hnodup, hdeps1, hdepsmem, rank, hrank⟩ := hf
  have hcl : ∀ x ∈ (rootsOf plan.issues).mergeSort (· ≤ ·),
      x ∈ issueNumbers plan.issues :=
    fun x hx => rootsOf_subset_issueNumbers plan.issues x (List.mem_mergeSort.mp hx)
  obtain ⟨nc, hn1, hn2, hn3, hn4⟩ := chainsLoop_delta plan.issues
    ((rootsOf plan.issues).mergeSort (· ≤ ·)) hcl ∅ []
  have hceq : plan.get_dependency_chains = nc := by
    have h0 : plan.get_dependency_chains =
        (chainsLoop plan.issues ((rootsOf plan.issues).mergeSort (· ≤ ·)) hcl ∅ []).1 :=
      rfl
    rw [h0, hn1]
    simp
  -- every issue number is visited: induction along the rank function
  have hcover : ∀ n ∈ issueNumbers plan.issues,
      n ∈ (chainsLoop plan.issues ((rootsOf plan.issues).mergeSort (· ≤ ·)) hcl ∅ []).2 := by
    have main : ∀ k n, n ∈ issueNumbers plan.issues → rank n < k →
        n ∈ (chainsLoop plan.issues ((rootsOf plan.issues).mergeSort (· ≤ ·)) hcl ∅ []).2 := by
      intro k
      induction k with
      | zero =>
          intro n _ hk
          exact absurd hk (Nat.not_lt_zero _)
      | succ k ih =>
          intro n hn hk
          obtain ⟨i, hi, rfl⟩ := List.mem_map.mp (List.mem_toFinset.mp hn)
          rcases hdep : i.dependencies with _ | ⟨d, ds⟩
          · -- no dependencies: `i.number` is a root and is visited as such
            have hnp : i.number ∉ hasParent plan.issues := by
              intro hmem
              rcases List.mem_map.mp hmem with ⟨j, hj, hjeq⟩
              have hji : j = i := issue_eq_of_number_eq plan.issues hnodup j
                (List.mem_filter.mp hj).1 i hi hjeq
              have hcond := (List.mem_filter.mp hj).2
              rw [hji, hdep] at hcond
              simp at hcond
            have hroot : i.number ∈ rootsOf plan.issues :=
              List.mem_map.mpr ⟨i, List.mem_filter.mpr ⟨hi, by simpa using hnp⟩, rfl⟩
            exact chainsLoop_roots_visited plan.issues _ hcl ∅ [] i.number
              (List.mem_mergeSort.mpr hroot)
          · -- one dependency `d`: `d` is visited at lower rank, then closure
            have hds : ds = [] := by
              have := hdeps1 i hi
              rw [hdep] at this
              simp only [List.length_cons] at this
              exact List.eq_nil_of_length_eq_zero (by omega)
            subst hds
            have hdmem : d ∈ plan.issues.map (·.number) :=
              hdepsmem i hi d (by rw [hdep]; exact List.mem_singleton.mpr rfl)
            have hrd : rank d < rank i.number :=
              hrank i hi d (by rw [hdep]; exact List.mem_singleton.mpr rfl)
            have hdv := ih d (List.mem_toFinset.mpr hdmem) (by omega)
            have hchild : i.number ∈ childrenOf plan.issues d :=
              List.mem_map.mpr ⟨i, List.mem_filter.mpr ⟨hi, by rw [hdep]; simp⟩, rfl⟩
            exact chainsLoop_closed plan.issues _ hcl ∅ []
              (fun x hx => absurd hx (Finset.not_mem_empty x)) d hdv i.number hchild
    exact fun n hn => main (rank n + 1) n hn (Nat.lt_succ_self _)
  have hsub : (chainsLoop plan.issues ((rootsOf plan.issues).mergeSort (· ≤ ·)) hcl ∅ []).2 ⊆
      issueNumbers plan.issues :=
    chainsLoop_visited_subset plan.issues _ hcl ∅ [] (Finset.empty_subset _)
  have hVset : (chainsLoop plan.issues ((rootsOf plan.issues).mergeSort (· ≤ ·)) hcl ∅ []).2 =
      nc.flatten.toFinset := by
    rw [hn4]
    simp
  have hVeq : nc.flatten.toFinset = (plan.issues.map (·.number)).toFinset := by
    apply Finset.Subset.antisymm
    · intro x hx
      have : x ∈ issueNumbers plan.issues := hsub (hVset ▸ hx)
      exact this
    · intro x hx
      have := hcover x hx
      rwa [hVset] at this
  constructor
  · rw [hceq]
    exact List.perm_of_nodup_nodup_toFinset_eq hn2 hnodup hVeq
  · exact chainsLoop_ordered plan.issues hnodup hdeps1 _ hcl
      (fun r hr' => rootsOf_deps_empty plan.issues r (List.mem_mergeSort.mp hr'))
      ∅ [] (fun ch h => absurd h (List.not_mem_nil ch))

/-- The spec §8 end-to-end example plan: issues 101 (no deps), 102 and 103
(both depending on 101). -/
def forestPlan : EpicPlan :=
  { epic := { number := 100, title := "epic", repo := "r", instance_name := "inst" }
    issues :=
      [ { number := 101, title := "a", status := "pending", dependencies := [],
          base_branch := "main" },
        { number := 102, title := "b", status := "pending", dependencies := [101],
          base_branch := "issue-101" },
        { number := 103, title := "c", status := "pending", dependencies := [101],
          base_branch := "issue-101" } ]
    parallelization := [("phase_1", [101]), ("phase_2", [102, 103])] }

/-- Witness for C1 at the spec §8 example. -/
theorem c1_resolver_chains_partition_witness :
    IsForest forestPlan.issues ∧
    (forestPlan.get_dependency_chains.flatten.Perm (forestPlan.issues.map (·.number)) ∧
     ∀ ch ∈ forestPlan.get_dependency_chains, ChainOrdered forestPlan.issues ch) := by
  have hf : IsForest forestPlan.issues :=
    ⟨by decide, by decide, by decide, id, by decide⟩
  exact ⟨hf, c1_resolver_chains_partition forestPlan hf⟩

/-- A single-issue plan whose only dependency (issue 1) is absent from the
issue list. -/
def missingDepPlan : EpicPlan :=
  { epic := { number := 10, title := "epic", repo := "r", instance_name := "inst" }
    issues :=
      [ { number := 2, title := "orphan", status := "pending", dependencies := [1],
          base_branch := "issue-1" } ]
    parallelization := [("phase_1", [2])] }

/-- C4 counterexample: on a plan with a dependency reference to a missing
issue, `get_dependency_chains` raises nothing and returns no chains at all —
issue 2 is silently omitted from every chain instead of a data-integrity
error being surfaced. -/
theorem c4_missing_dep_counterexample :
    (∃ i ∈ missingDepPlan.issues,
      1 ∈ i.dependencies ∧ 1 ∉ missingDepPlan.issues.map (·.number)) ∧
    missingDepPlan.get_dependency_chains = [] := by
  constructor
  · decide
  · simp [EpicPlan.get_dependency_chains, chainsLoop, bfsLoop, childrenOf, hasParent,
      rootsOf, issueNumbers, List.mergeSort, missingDepPlan]

/-- C4 (amended): when an issue's dependencies all reference numbers missing
from the issue list, `get_dependency_chains` silently drops that issue — it
returns normally and the issue appears in no chain; no error is surfaced. -/
theorem c4_missing_dep_silently_dropped (plan : EpicPlan)
    (hnodup : (plan.issues.map (·.number)).Nodup)
    (i : IssueInfo) (hi : i ∈ plan.issues) (hne : i.dependencies ≠ [])
    (hmiss : ∀ d ∈ i.dependencies, d ∉ plan.issues.map (·.number)) :
    ∀ ch ∈ plan.get_dependency_chains, i.number ∉ ch := by
  have hcl : ∀ x ∈ (rootsOf plan.issues).mergeSort (· ≤ ·),
      x ∈ issueNumbers plan.issues :=
    fun x hx => rootsOf_subset_issueNumbers plan.issues x (List.mem_mergeSort.mp hx)
  obtain ⟨nc, hn1, hn2, hn3, hn4⟩ := chainsLoop_delta plan.issues
    ((rootsOf plan.issues).mergeSort (· ≤ ·)) hcl ∅ []
  have hceq : plan.get_dependency_chains = nc := by
    have h0 : plan.get_dependency_chains =
        (chainsLoop plan.issues ((rootsOf plan.issues).mergeSort (· ≤ ·)) hcl ∅ []).1 :=
      rfl
    rw [h0, hn1]
    simp
  intro ch hch hmem
  -- if the issue sat on a chain it would be in the final visited set
  have hV : i.number ∈
      (chainsLoop plan.issues ((rootsOf plan.issues).mergeSort (· ≤ ·)) hcl ∅ []).2 := by
    rw [hn4]
    refine Finset.mem_union_right _ (List.mem_toFinset.mpr ?_)
    rw [hceq] at hch
    exact List.mem_flatten.mpr ⟨ch, hch, hmem⟩
  rcases chainsLoop_parent_closure plan.issues _ hcl ∅ [] i.number hV with h | h | h
  · exact absurd h (Finset.not_mem_empty _)
  · -- cannot be a root: the issue has dependencies
    have hroot := List.mem_mergeSort.mp h
    have := rootsOf_deps_empty plan.issues i.number hroot i hi rfl
    exact hne this
  · -- cannot be a child: its parent would be a visited issue number
    obtain ⟨d, hd1, hd2⟩ := h
    rcases List.mem_map.mp hd2 with ⟨j, hj, hjeq⟩
    have hji : j = i := issue_eq_of_number_eq plan.issues hnodup j
      (List.mem_filter.mp hj).1 i hi hjeq
    have hdj : d ∈ j.dependencies := by
      have := (List.mem_filter.mp hj).2
      simpa using this
    rw [hji] at hdj
    have hdnum : d ∈ issueNumbers plan.issues :=
      chainsLoop_visited_subset plan.issues _ hcl ∅ [] (Finset.empty_subset _) hd1
    exact hmiss d hdj (List.mem_toFinset.mp hdnum)

/-- Witness for the amended C4 at the concrete missing-dependency plan. -/
theorem c4_missing_dep_silently_dropped_witness :
    (missingDepPlan.issues.map (·.number)).Nodup ∧
    (∀ ch ∈ missingDepPlan.get_dependency_chains,
      ({ number := 2, title := "orphan", status := "pending", dependencies := [1],
         base_branch := "issue-1" } : IssueInfo).number ∉ ch) := by
  refine ⟨by decide, ?_⟩
  exact c4_missing_dep_silently_dropped missingDepPlan (by decide) _
    (by decide) (by decide) (by decide)

/-! ## Plan persistence (`EpicPlan.save` / `EpicPlan.load`, `models.py`)

`save` serialises the dataclass `__dict__`s into a JSON document and writes
it; `load` reads the file back and runs `EpicPlan.from_json`.  The file
system together with `json.dumps`/`json.loads` is an external collaborator
that transports a JSON value unchanged, so persistence is modelled at the
JSON-value level: `save` produces the JSON document, `load` decodes one. -/

/-- JSON values as handled by Python's `json` module.  Objects are key/value
lists in insertion order (Python dicts preserve it); the only numbers the
plan documents contain are integers. -/
inductive Json where
  | null : Json
  | num : Int → Json
  | str : String → Json
  | arr : List Json → Json
  | obj : List (String × Json) → Json

/-- Dictionary lookup `data[key]`, `None` when the key is absent or the
value is not an object. -/
def Json.get? (j : Json) (key : String) : Option Json :=
  match j with
  | .obj kvs => (kvs.find? (fun kv => kv.1 == key)).map (·.2)
  | _ => none

/-- Reading an integer field into a `Nat`-valued dataclass slot. -/
def Json.asNat : Json → Except String Nat
  | .num k => if 0 ≤ k then .ok k.toNat else .error "negative number"
  | _ => .error "expected number"

/-- Reading a string field. -/
def Json.asStr : Json → Except String String
  | .str s => .ok s
  | _ => .error "expected string"

/-- Reads the elements of an integer array one by one, first error wins. -/
def decodeNats : List Json → Except String (List Nat)
  | [] => .ok []
  | j :: js => do
    let n ← Json.asNat j
    let rest ← decodeNats js
    return (n :: rest)

/-- Reading a list-of-integers field (`dependencies`, phase issue lists). -/
def Json.asNatList : Json → Except String (List Nat)
  | .arr js => decodeNats js
  | _ => .error "expected array"

/-- `epic.__dict__` as written by `EpicPlan.save`. -/
def EpicInfo.toJson (e : EpicInfo) : Json :=
  .obj [("number", .num (Int.ofNat e.number)), ("title", .str e.title),
        ("repo", .str e.repo), ("instance", .str e.instance_name)]

/-- `issue.__dict__` as written by `EpicPlan.save`; `None` becomes JSON
null. -/
def IssueInfo.toJson (i : IssueInfo) : Json :=
  .obj [("number", .num (Int.ofNat i.number)), ("title", .str i.title),
        ("status", .str i.status),
        ("dependencies", .arr (i.dependencies.map (fun d => Json.num (Int.ofNat d)))),
        ("base_branch", .str i.base_branch),
        ("worktree_path", match i.worktree_path with
          | none => .null
          | some s => .str s),
        ("pr_number", match i.pr_number with
          | none => .null
          | some n => .num (Int.ofNat n))]

/-- The `plan_data` document assembled by `EpicPlan.save`. -/
def EpicPlan.save (p : EpicPlan) : Json :=
  .obj [("epic", p.epic.toJson),
        ("issues", .arr (p.issues.map IssueInfo.toJson)),
        ("parallelization",
          .obj (p.parallelization.map
            (fun kv => (kv.1, Json.arr (kv.2.map (fun n => Json.num (Int.ofNat n)))))))]

/-- `EpicInfo(**data['epic'])`: all four fields are required keyword
arguments; a missing key raises. -/
def EpicInfo.fromJson (j : Json) : Except String EpicInfo := do
  let number ← ((j.get? "number").elim (.error "missing number") Json.asNat)
  let title ← ((j.get? "title").elim (.error "missing title") Json.asStr)
  let repo ← ((j.get? "repo").elim (.error "missing repo") Json.asStr)
  let inst ← ((j.get? "instance").elim (.error "missing instance") Json.asStr)
  return { number := number, title := title, repo := repo, instance_name := inst }

/-- `IssueInfo(**issue_data)`: five required fields plus the two optional
fields defaulting to `None` when the key is absent or null. -/
def IssueInfo.fromJson (j : Json) : Except String IssueInfo := do
  let number ← ((j.get? "number").elim (.error "missing number") Json.asNat)
  let title ← ((j.get? "title").elim (.error "missing title") Json.asStr)
  let status ← ((j.get? "status").elim (.error "missing status") Json.asStr)
  let deps ← ((j.get? "dependencies").elim (.error "missing dependencies") Json.asNatList)
  let base ← ((j.get? "base_branch").elim (.error "missing base_branch") Json.asStr)
  let wt ← (match j.get? "worktree_path" with
    | none => .ok none
    | some .null => .ok none
    | some (.str s) => .ok (some s)
    | some _ => .error "bad worktree_path")
  let pr ← (match j.get? "pr_number" with
    | none => .ok none
    | some .null => .ok none
    | some (.num k) => if 0 ≤ k then .ok (some k.toNat) else .error "bad pr_number"
    | some _ => .error "bad pr_number")
  return { number := number, title := title, status := status, dependencies := deps,
           base_branch := base, worktree_path := wt, pr_number := pr }

/-- `[IssueInfo(**issue_data) for issue_data in data['issues']]`: decodes the
issue list in order, first error wins. -/
def decodeIssues : List Json → Except String (List IssueInfo)
  | [] => .ok []
  | j :: js => do
    let i ← IssueInfo.fromJson j
    let rest ← decodeIssues js
    return (i :: rest)

/-- Decodes the `parallelization` object's entries in order. -/
def decodePhases : List (String × Json) → Except String (List (String × List Nat))
  | [] => .ok []
  | kv :: kvs => do
    let ns ← Json.asNatList kv.2
    let rest ← decodePhases kvs
    return ((kv.1, ns) :: rest)

/-- `EpicPlan.from_json`: validates that the `epic`, `issues` and
`parallelization` keys are present (otherwise `KeyError`), then parses the
epic info, the issue list, and the phase map. -/
def EpicPlan.from_json (j : Json) : Except String EpicPlan := do
  let epicJson ← ((j.get? "epic").elim
    (.error "Missing epic field in JSON response") .ok)
  let issuesJson ← ((j.get? "issues").elim
    (.error "Missing issues field in JSON response") .ok)
  let parJson ← ((j.get? "parallelization").elim
    (.error "Missing parallelization field in JSON response") .ok)
  let epic ← EpicInfo.fromJson epicJson
  let issues ← (match issuesJson with
    | .arr js => decodeIssues js
    | _ => .error "issues must be a list")
  let par ← (match parJson with
    | .obj kvs => decodePhases kvs
    | _ => .error "parallelization must be an object")
  return { epic := epic, issues := issues, parallelization := par }

/-- `EpicPlan.load`: reads the persisted document and parses it with
`from_json`. -/
def EpicPlan.load (j : Json) : Except String EpicPlan :=
  EpicPlan.from_json j

theorem except_bind_ok {α β ε : Type} (a : α) (f : α → Except ε β) :
    (Except.ok a : Except ε α) >>= f = f a := rfl

theorem except_pure_eq {α ε : Type} (a : α) :
    (pure a : Except ε α) = .ok a := rfl

theorem asNat_natCast (n : Nat) : Json.asNat (.num (n : Int)) = .ok n := by
  simp [Json.asNat]

theorem asNatList_roundtrip (ns : List Nat) :
    Json.asNatList (.arr (ns.map (fun n : Nat => Json.num (n : Int)))) = .ok ns := by
  induction ns with
  | nil => rfl
  | cons n rest ih =>
      simp only [Json.asNatList, List.map_cons, decodeNats] at ih ⊢
      rw [asNat_natCast, except_bind_ok, ih]
      rfl

theorem epicInfo_roundtrip (e : EpicInfo) :
    EpicInfo.fromJson e.toJson = .ok e := by
  cases e
  simp [EpicInfo.fromJson, EpicInfo.toJson, Json.get?, Json.asNat, Json.asStr,
    except_bind_ok, except_pure_eq]

theorem issueInfo_roundtrip (i : IssueInfo) :
    IssueInfo.fromJson i.toJson = .ok i := by
  cases i with
  | mk number title status dependencies base_branch worktree_path pr_number =>
      cases worktree_path <;> cases pr_number <;>
        simp [IssueInfo.fromJson, IssueInfo.toJson, Json.get?, Json.asNat, Json.asStr,
          asNatList_roundtrip, except_bind_ok, except_pure_eq]

theorem decodeIssues_roundtrip (issues : List IssueInfo) :
    decodeIssues (issues.map IssueInfo.toJson) = .ok issues := by
  induction issues with
  | nil => rfl
  | cons i rest ih =>
      simp only [List.map_cons, decodeIssues]
      rw [issueInfo_roundtrip, except_bind_ok, ih]
      rfl

theorem decodePhases_roundtrip (par : List (String × List Nat)) :
    decodePhases (par.map (fun kv =>
      (kv.1, Json.arr (kv.2.map (fun n : Nat => Json.num (n : Int)))))) = .ok par := by
  induction par with
  | nil => rfl
  | cons kv rest ih =>
      simp only [List.map_cons, decodePhases]
      rw [asNatList_roundtrip, except_bind_ok, ih]
      rfl

/-- C10: plan persistence round-trips — saving any `EpicPlan` and loading
the saved document yields the identical plan: same epic metadata, same issue
list in the same order with identical fields, same phase map. -/
theorem c10_plan_save_load_roundtrip (p : EpicPlan) :
    EpicPlan.load p.save = .ok p := by
  cases p with
  | mk epic issues par =>
      simp only [EpicPlan.load, EpicPlan.from_json, EpicPlan.save, Json.get?,
        List.find?, Option.elim]
      simp [epicInfo_roundtrip, decodeIssues_roundtrip, decodePhases_roundtrip,
        except_bind_ok, except_pure_eq]

/-! ## Review monitor (`ReviewMonitor.monitor_epic_reviews`, `review_monitor.py`)

The poll loop is embedded over an explicit environment: `counts pr` is what
`_count_coderabbit_comments` returns for PR `pr` during the current poll
(0 on error, per the source), `worktrees` is the set of issue numbers that
have a worktree, and the issue list is the plan's issue list after PR
discovery (the embedding models polls over a stable set of tracked PRs; the
dynamic discovery of Phase 0 only extends that set).  The fix-workflow results
of Phase 2 affect only logging: the attempt counter increments for every
dispatched PR whether the fix session succeeded or failed. -/

/-- Monitor-session state: `addressed` (PRs seen with 0 comments) and the
`fix_attempts` counters (`fix_attempts.get(pr, 0)` is total with default 0). -/
structure MonitorState where
  addressed : Finset Nat
  fixAttempts : Nat → Nat

/-- Phase 1 of a poll: walk the issue list; skip issues without a PR, PRs
already clean, and PRs at the attempt cap; otherwise count comments.  A
positive count queues the PR for a fix when its issue has a worktree; a zero
count marks the PR clean.  Returns the new `addressed` set, the
`prs_needing_fixes` pairs and the list of PRs actually checked. -/
def scanPRs (maxAttempts : Nat) (counts : Nat → Nat) (worktrees : List Nat)
    (fixAttempts : Nat → Nat) :
    List IssueInfo → Finset Nat → Finset Nat × List (Nat × Nat) × List Nat
  | [], addressed => (addressed, [], [])
  | issue :: rest, addressed =>
    match issue.pr_number with
    | none => scanPRs maxAttempts counts worktrees fixAttempts rest addressed
    | some pr =>
      if pr ∈ addressed then
        scanPRs maxAttempts counts worktrees fixAttempts rest addressed
      else if maxAttempts ≤ fixAttempts pr then
        scanPRs maxAttempts counts worktrees fixAttempts rest addressed
      else if 0 < counts pr then
        let res := scanPRs maxAttempts counts worktrees fixAttempts rest addressed
        if issue.number ∈ worktrees then
          (res.1, (issue.number, pr) :: res.2.1, pr :: res.2.2)
        else
          (res.1, res.2.1, pr :: res.2.2)
      else
        let res := scanPRs maxAttempts counts worktrees fixAttempts rest
          (insert pr addressed)
        (res.1, res.2.1, pr :: res.2.2)

/-- Phase 2 bookkeeping: `fix_attempts[pr] = fix_attempts.get(pr, 0) + 1`
for every dispatched pair, successful or not. -/
def bumpAttempts (fixAttempts : Nat → Nat) : List (Nat × Nat) → (Nat → Nat)
  | [] => fixAttempts
  | (_, pr) :: rest =>
    bumpAttempts (fun q => if q = pr then fixAttempts q + 1 else fixAttempts q) rest

/-- Why the poll loop stopped. -/
inductive MonitorExit where
  | allClean : MonitorExit
  | maxAttemptsExhausted : MonitorExit
  deriving DecidableEq, Repr

/-- One iteration of the `while True:` loop of `monitor_epic_reviews`:
collect the PRs to monitor (continuing with no exit when there are none),
scan them (Phase 1), bump attempt counters for dispatched fixes (Phase 2),
then evaluate the two exit conditions (Phase 3): all PRs clean, or no PR
left that is neither clean nor at the attempt cap. -/
def pollOnce (maxAttempts : Nat) (counts : Nat → Nat) (worktrees : List Nat)
    (issues : List IssueInfo) (s : MonitorState) : MonitorState × Option MonitorExit :=
  let prsToMonitor := issues.filterMap (·.pr_number)
  if prsToMonitor.isEmpty then (s, none)
  else
    let res := scanPRs maxAttempts counts worktrees s.fixAttempts issues s.addressed
    let fixAttempts' := bumpAttempts s.fixAttempts res.2.1
    let s' : MonitorState := ⟨res.1, fixAttempts'⟩
    if prsToMonitor.length ≤ s'.addressed.card then
      (s', some .allClean)
    else if (prsToMonitor.filter (fun pr =>
        decide (pr ∉ s'.addressed) && decide (fixAttempts' pr < maxAttempts))).length = 0 then
      (s', some .maxAttemptsExhausted)
    else
      (s', none)

/-- The poll loop itself, observed for `fuel` polls: returns the final state
and exit reason if the loop breaks within `fuel` iterations, `none` if it is
still polling.  `env k pr` is the comment count observed for `pr` during
poll `k`. -/
def monitorLoop (maxAttempts : Nat) (env : Nat → Nat → Nat) (worktrees : List Nat)
    (issues : List IssueInfo) : Nat → Nat → MonitorState → Option (MonitorState × MonitorExit)
  | 0, _, _ => none
  | fuel + 1, pollIdx, s =>
    match pollOnce maxAttempts (env pollIdx) worktrees issues s with
    | (s', some e) => some (s', e)
    | (s', none) => monitorLoop maxAttempts env worktrees issues fuel (pollIdx + 1) s'

/-- The scan only ever grows the clean set. -/
theorem scanPRs_addressed_mono (maxAttempts : Nat) (counts : Nat → Nat)
    (worktrees : List Nat) (fixAttempts : Nat → Nat) (issues : List IssueInfo)
    (addressed : Finset Nat) :
    addressed ⊆ (scanPRs maxAttempts counts worktrees fixAttempts issues addressed).1 := by
  induction issues generalizing addressed with
  | nil => exact fun _ h => h
  | cons issue rest ih =>
      cases hpr : issue.pr_number with
      | none =>
          simp only [scanPRs, hpr]
          exact ih addressed
      | some pr =>
          simp only [scanPRs, hpr]
          by_cases h1 : pr ∈ addressed
          · rw [if_pos h1]
            exact ih addressed
          · rw [if_neg h1]
            by_cases h2 : maxAttempts ≤ fixAttempts pr
            · rw [if_pos h2]
              exact ih addressed
            · rw [if_neg h2]
              by_cases h3 : 0 < counts pr
              · rw [if_pos h3]
                by_cases h4 : issue.number ∈ worktrees
                · rw [if_pos h4]
                  exact ih addressed
                · rw [if_neg h4]
                  exact ih addressed
              · rw [if_neg h3]
                intro x hx
                exact ih (insert pr addressed) (Finset.mem_insert_of_mem hx)

/-- C2: during a poll's scan, (i) every PR whose observed comment count is 0
is added to the clean/addressed set — no matter how many fix attempts it has
accumulated, any observation of 0 comments marks it clean; (ii) a PR becomes
clean only by such an observation: a PR in the output addressed set was
already clean before the poll or was checked this poll with comment count
exactly 0 — absence of new comments is never enough; and (iii) every tracked
non-clean PR below the attempt cap is actually observed, so a zero count for
it makes it clean.  (The scan queries the count only for PRs below the cap:
an observation at a higher attempt count cannot occur.) -/
theorem c2_clean_iff_observed_zero (maxAttempts : Nat) (counts : Nat → Nat)
    (worktrees : List Nat) (fixAttempts : Nat → Nat) (issues : List IssueInfo)
    (addressed : Finset Nat) :
    (∀ pr ∈ (scanPRs maxAttempts counts worktrees fixAttempts issues addressed).2.2,
      counts pr = 0 →
      pr ∈ (scanPRs maxAttempts counts worktrees fixAttempts issues addressed).1) ∧
    (∀ pr, pr ∈ (scanPRs maxAttempts counts worktrees fixAttempts issues addressed).1 →
      pr ∈ addressed ∨
        (pr ∈ (scanPRs maxAttempts counts worktrees fixAttempts issues addressed).2.2 ∧
         counts pr = 0)) ∧
    (∀ i ∈ issues, ∀ pr, i.pr_number = some pr → pr ∉ addressed →
      fixAttempts pr < maxAttempts → counts pr = 0 →
      pr ∈ (scanPRs maxAttempts counts worktrees fixAttempts issues addressed).1) := by
  induction issues generalizing addressed with
  | nil =>
      refine ⟨?_, ?_, ?_⟩
      · intro pr hpr
        rw [scanPRs] at hpr
        exact absurd hpr (List.not_mem_nil pr)
      · intro pr hpr
        rw [scanPRs] at hpr
        exact Or.inl hpr
      · intro i hi
        exact absurd hi (List.not_mem_nil i)
  | cons issue rest ih =>
      cases hpr : issue.pr_number with
      | none =>
          simp only [scanPRs, hpr]
          refine ⟨(ih addressed).1, (ih addressed).2.1, ?_⟩
          intro i hi pr hipr ha hatt hc
          rcases List.mem_cons.mp hi with rfl | hi
          · rw [hpr] at hipr
            exact absurd hipr (by simp)
          · exact (ih addressed).2.2 i hi pr hipr ha hatt hc
      | some pr0 =>
          simp only [scanPRs, hpr]
          by_cases h1 : pr0 ∈ addressed
          · simp only [if_pos h1]
            refine ⟨(ih addressed).1, (ih addressed).2.1, ?_⟩
            intro i hi pr hipr ha hatt hc
            rcases List.mem_cons.mp hi with rfl | hi
            · rw [hpr] at hipr
              injection hipr with h
              subst h
              exact absurd h1 ha
            · exact (ih addressed).2.2 i hi pr hipr ha hatt hc
          · simp only [if_neg h1]
            by_cases h2 : maxAttempts ≤ fixAttempts pr0
            · simp only [if_pos h2]
              refine ⟨(ih addressed).1, (ih addressed).2.1, ?_⟩
              intro i hi pr hipr ha hatt hc
              rcases List.mem_cons.mp hi with rfl | hi
              · rw [hpr] at hipr
                injection hipr with h
                subst h
                omega
              · exact (ih addressed).2.2 i hi pr hipr ha hatt hc
            · simp only [if_neg h2]
              by_cases h3 : 0 < counts pr0
              · simp only [if_pos h3]
                have key : ∀ (t : Finset Nat × List (Nat × Nat) × List Nat),
                    t.1 = (scanPRs maxAttempts counts worktrees fixAttempts rest addressed).1 →
                    t.2.2 = pr0 :: (scanPRs maxAttempts counts worktrees fixAttempts rest addressed).2.2 →
                    (∀ pr ∈ t.2.2, counts pr = 0 → pr ∈ t.1) ∧
                    (∀ pr, pr ∈ t.1 → pr ∈ addressed ∨ (pr ∈ t.2.2 ∧ counts pr = 0)) ∧
                    (∀ i ∈ issue :: rest, ∀ pr, i.pr_number = some pr → pr ∉ addressed →
                      fixAttempts pr < maxAttempts → counts pr = 0 → pr ∈ t.1) := by
                  intro t ht1 ht2
                  rw [ht1, ht2]
                  refine ⟨?_, ?_, ?_⟩
                  · intro pr hmem hc
                    rcases List.mem_cons.mp hmem with rfl | hmem
                    · omega
                    · exact (ih addressed).1 pr hmem hc
                  · intro pr hmem
                    rcases (ih addressed).2.1 pr hmem with h | h
                    · exact Or.inl h
                    · exact Or.inr ⟨List.mem_cons_of_mem _ h.1, h.2⟩
                  · intro i hi pr hipr ha hatt hc
                    rcases List.mem_cons.mp hi with rfl | hi
                    · rw [hpr] at hipr
                      injection hipr with h
                      subst h
                      omega
                    · exact (ih addressed).2.2 i hi pr hipr ha hatt hc
                by_cases h4 : issue.number ∈ worktrees
                · simp only [if_pos h4]
                  exact key ((scanPRs maxAttempts counts worktrees fixAttempts rest addressed).1,
                    (issue.number, pr0) ::
                      (scanPRs maxAttempts counts worktrees fixAttempts rest addressed).2.1,
                    pr0 :: (scanPRs maxAttempts counts worktrees fixAttempts rest addressed).2.2)
                    rfl rfl
                · simp only [if_neg h4]
                  exact key ((scanPRs maxAttempts counts worktrees fixAttempts rest addressed).1,
                    (scanPRs maxAttempts counts worktrees fixAttempts rest addressed).2.1,
                    pr0 :: (scanPRs maxAttempts counts worktrees fixAttempts rest addressed).2.2)
                    rfl rfl
              · simp only [if_neg h3]
                have hc0 : counts pr0 = 0 := by omega
                have hmono := scanPRs_addressed_mono maxAttempts counts worktrees
                  fixAttempts rest (insert pr0 addressed)
                refine ⟨?_, ?_, ?_⟩
                · intro pr hmem hc
                  rcases List.mem_cons.mp hmem with rfl | hmem
                  · exact hmono (Finset.mem_insert_self _ _)
                  · exact (ih (insert pr0 addressed)).1 pr hmem hc
                · intro pr hmem
                  rcases (ih (insert pr0 addressed)).2.1 pr hmem with h | h
                  · rcases Finset.mem_insert.mp h with rfl | h
                    · exact Or.inr ⟨List.mem_cons_self _ _, hc0⟩
                    · exact Or.inl h
                  · exact Or.inr ⟨List.mem_cons_of_mem _ h.1, h.2⟩
                · intro i hi pr hipr ha hatt hc
                  rcases List.mem_cons.mp hi with rfl | hi
                  · rw [hpr] at hipr
                    injection hipr with h
                    subst h
                    exact hmono (Finset.mem_insert_self _ _)
                  · by_cases hpp : pr = pr0
                    · subst hpp
                      exact hmono (Finset.mem_insert_self _ _)
                    · exact (ih (insert pr0 addressed)).2.2 i hi pr hipr
                        (fun hm => ha (by
                          rcases Finset.mem_insert.mp hm with h | h
                          · exact absurd h hpp
                          · exact h)) hatt hc

/-- When every tracked PR is already clean or at the attempt cap, the scan
checks nothing and changes nothing. -/
theorem scanPRs_skip_all (maxAttempts : Nat) (counts : Nat → Nat)
    (worktrees : List Nat) (fixAttempts : Nat → Nat) (issues : List IssueInfo)
    (addressed : Finset Nat)
    (h : ∀ i ∈ issues, ∀ pr, i.pr_number = some pr →
      pr ∈ addressed ∨ maxAttempts ≤ fixAttempts pr) :
    scanPRs maxAttempts counts worktrees fixAttempts issues addressed =
      (addressed, [], []) := by
  induction issues with
  | nil => rfl
  | cons issue rest ih =>
      cases hpr : issue.pr_number with
      | none =>
          simp only [scanPRs, hpr]
          exact ih (fun i hi => h i (List.mem_cons_of_mem _ hi))
      | some pr0 =>
          simp only [scanPRs, hpr]
          rcases h issue (List.mem_cons_self _ _) pr0 hpr with h1 | h2
          · rw [if_pos h1]
            exact ih (fun i hi => h i (List.mem_cons_of_mem _ hi))
          · by_cases h1 : pr0 ∈ addressed
            · rw [if_pos h1]
              exact ih (fun i hi => h i (List.mem_cons_of_mem _ hi))
            · rw [if_neg h1, if_pos h2]
              exact ih (fun i hi => h i (List.mem_cons_of_mem _ hi))

/-- When every tracked PR is dirty, below the attempt cap and backed by a
worktree, the scan queues exactly the tracked PRs (in order) and marks
nothing clean. -/
theorem scanPRs_dispatch_all (maxAttempts : Nat) (counts : Nat → Nat)
    (worktrees : List Nat) (fixAttempts : Nat → Nat) (issues : List IssueInfo)
    (addressed : Finset Nat)
    (h : ∀ i ∈ issues, ∀ pr, i.pr_number = some pr →
      pr ∉ addressed ∧ fixAttempts pr < maxAttempts ∧ 0 < counts pr ∧
        i.number ∈ worktrees) :
    (scanPRs maxAttempts counts worktrees fixAttempts issues addressed).1 = addressed ∧
    ((scanPRs maxAttempts counts worktrees fixAttempts issues addressed).2.1).map (·.2) =
      issues.filterMap (·.pr_number) := by
  induction issues with
  | nil => exact ⟨rfl, rfl⟩
  | cons issue rest ih =>
      cases hpr : issue.pr_number with
      | none =>
          simp only [scanPRs, hpr, List.filterMap_cons, hpr]
          exact ih (fun i hi => h i (List.mem_cons_of_mem _ hi))
      | some pr0 =>
          obtain ⟨h1, h2, h3, h4⟩ := h issue (List.mem_cons_self _ _) pr0 hpr
          simp only [scanPRs, hpr, List.filterMap_cons]
          rw [if_neg h1, if_neg (by omega : ¬ maxAttempts ≤ fixAttempts pr0),
            if_pos h3, if_pos h4]
          obtain ⟨ih1, ih2⟩ := ih (fun i hi => h i (List.mem_cons_of_mem _ hi))
          exact ⟨ih1, by simp only [List.map_cons, ih2]⟩

/-- Attempt bumping over a duplicate-free dispatch list adds exactly one to
each dispatched PR's counter. -/
theorem bumpAttempts_eq (l : List (Nat × Nat)) (f : Nat → Nat)
    (hnd : (l.map (·.2)).Nodup) (q : Nat) :
    bumpAttempts f l q = if q ∈ l.map (·.2) then f q + 1 else f q := by
  induction l generalizing f with
  | nil => simp [bumpAttempts]
  | cons p rest ih =>
      obtain ⟨i, pr⟩ := p
      simp only [List.map_cons] at hnd
      have hnd' := List.nodup_cons.mp hnd
      simp only [bumpAttempts]
      rw [ih _ hnd'.2 ]
      by_cases hq : q = pr
      · subst hq
        simp [hnd'.1, List.map_cons, List.mem_cons]
      · by_cases hm : q ∈ rest.map (·.2)
        · simp [hq, hm, List.map_cons, List.mem_cons]
        · simp [hq, hm, List.map_cons, List.mem_cons]

/-- A poll over tracked PRs that are all clean exits with `allClean` and
leaves the state unchanged. -/
theorem pollOnce_all_clean (maxAttempts : Nat) (counts : Nat → Nat)
    (worktrees : List Nat) (issues : List IssueInfo) (s : MonitorState)
    (hne : issues.filterMap (·.pr_number) ≠ [])
    (hnd : (issues.filterMap (·.pr_number)).Nodup)
    (hall : ∀ pr ∈ issues.filterMap (·.pr_number), pr ∈ s.addressed) :
    pollOnce maxAttempts counts worktrees issues s = (s, some .allClean) := by
  have hskip := scanPRs_skip_all maxAttempts counts worktrees s.fixAttempts issues
    s.addressed
    (fun i hi pr hpr => Or.inl (hall pr (List.mem_filterMap.mpr ⟨i, hi, hpr⟩)))
  have hlen : (issues.filterMap (·.pr_number)).length ≤ s.addressed.card := by
    have h1 : (issues.filterMap (·.pr_number)).toFinset ⊆ s.addressed := fun pr hpr =>
      hall pr (List.mem_toFinset.mp hpr)
    have h2 := Finset.card_le_card h1
    rwa [List.toFinset_card_of_nodup hnd] at h2
  simp only [pollOnce, hskip, bumpAttempts]
  rw [if_neg (by simpa [List.isEmpty_iff] using hne)]
  rw [if_pos hlen]

/-- A poll over tracked PRs that are each clean or at the attempt cap — with
at least one not clean — exits with `maxAttemptsExhausted` and leaves the
state unchanged. -/
theorem pollOnce_all_exhausted (maxAttempts : Nat) (counts : Nat → Nat)
    (worktrees : List Nat) (issues : List IssueInfo) (s : MonitorState)
    (hne : issues.filterMap (·.pr_number) ≠ [])
    (hsub : s.addressed ⊆ (issues.filterMap (·.pr_number)).toFinset)
    (hex : ∃ pr ∈ issues.filterMap (·.pr_number), pr ∉ s.addressed)
    (hstuck : ∀ pr ∈ issues.filterMap (·.pr_number),
      pr ∈ s.addressed ∨ maxAttempts ≤ s.fixAttempts pr) :
    pollOnce maxAttempts counts worktrees issues s = (s, some .maxAttemptsExhausted) := by
  have hskip := scanPRs_skip_all maxAttempts counts worktrees s.fixAttempts issues
    s.addressed
    (fun i hi pr hpr => hstuck pr (List.mem_filterMap.mpr ⟨i, hi, hpr⟩))
  have hlt : s.addressed.card < (issues.filterMap (·.pr_number)).length := by
    obtain ⟨pr, hpr, hnpr⟩ := hex
    have hss : s.addressed ⊂ (issues.filterMap (·.pr_number)).toFinset :=
      (Finset.ssubset_iff_of_subset hsub).mpr ⟨pr, List.mem_toFinset.mpr hpr, hnpr⟩
    exact lt_of_lt_of_le (Finset.card_lt_card hss) (List.toFinset_card_le _)
  have hfilter : ((issues.filterMap (·.pr_number)).filter (fun pr =>
      decide (pr ∉ s.addressed) && decide (s.fixAttempts pr < maxAttempts))) = [] := by
    rw [List.filter_eq_nil_iff]
    intro pr hpr hcond
    rw [Bool.and_eq_true, decide_eq_true_eq, decide_eq_true_eq] at hcond
    rcases hstuck pr hpr with h | h
    · exact hcond.1 h
    · omega
  simp only [pollOnce, hskip, bumpAttempts]
  rw [if_neg (by simpa [List.isEmpty_iff] using hne)]
  rw [if_neg (by omega)]
  rw [if_pos (by rw [hfilter]; rfl)]

/-- A poll over uniformly dirty PRs (all below the cap, all with worktrees)
dispatches a fix for each of them, bumping every counter from `c` to
`c + 1`; the loop then continues when `c + 1` is still below the cap and
exits `maxAttemptsExhausted` when the cap is reached. -/
theorem pollOnce_dispatch (maxAttempts : Nat) (counts : Nat → Nat)
    (worktrees : List Nat) (issues : List IssueInfo) (f : Nat → Nat) (c : Nat)
    (hne : issues.filterMap (·.pr_number) ≠ [])
    (hnd : (issues.filterMap (·.pr_number)).Nodup)
    (hwt : ∀ i ∈ issues, i.number ∈ worktrees)
    (hpos : ∀ pr ∈ issues.filterMap (·.pr_number), 0 < counts pr)
    (hc : c < maxAttempts)
    (hfc : ∀ pr ∈ issues.filterMap (·.pr_number), f pr = c) :
    ∃ f', pollOnce maxAttempts counts worktrees issues ⟨∅, f⟩ =
        (⟨∅, f'⟩, if c + 1 < maxAttempts then none else some .maxAttemptsExhausted) ∧
      (∀ pr ∈ issues.filterMap (·.pr_number), f' pr = c + 1) := by
  obtain ⟨hd1, hd2⟩ := scanPRs_dispatch_all maxAttempts counts worktrees f issues ∅
    (fun i hi pr hpr =>
      ⟨Finset.not_mem_empty pr,
       by rw [hfc pr (List.mem_filterMap.mpr ⟨i, hi, hpr⟩)]; exact hc,
       hpos pr (List.mem_filterMap.mpr ⟨i, hi, hpr⟩), hwt i hi⟩)
  have hbump : ∀ q, bumpAttempts f (scanPRs maxAttempts counts worktrees f issues ∅).2.1 q =
      if q ∈ issues.filterMap (·.pr_number) then f q + 1 else f q := by
    intro q
    rw [bumpAttempts_eq _ f (by rw [hd2]; exact hnd) q, hd2]
  refine ⟨bumpAttempts f (scanPRs maxAttempts counts worktrees f issues ∅).2.1, ?_, ?_⟩
  · have hlenpos : 0 < (issues.filterMap (·.pr_number)).length :=
      List.length_pos.mpr hne
    simp only [pollOnce]
    rw [if_neg (by simpa [List.isEmpty_iff] using hne)]
    rw [hd1]
    rw [if_neg (by simp only [Finset.card_empty]; omega)]
    by_cases hcap : c + 1 < maxAttempts
    · rw [if_pos hcap]
      have heq : ((issues.filterMap (·.pr_number)).filter (fun pr =>
          decide (pr ∉ (∅ : Finset Nat)) &&
            decide (bumpAttempts f
              (scanPRs maxAttempts counts worktrees f issues ∅).2.1 pr < maxAttempts))) =
          issues.filterMap (·.pr_number) := by
        rw [List.filter_eq_self]
        intro pr hpr
        have hb := hbump pr
        rw [if_pos hpr, hfc pr hpr] at hb
        simp [hb, hcap]
      have hside : ¬ (((issues.filterMap (·.pr_number)).filter (fun pr =>
          decide (pr ∉ (∅ : Finset Nat)) &&
            decide (bumpAttempts f
              (scanPRs maxAttempts counts worktrees f issues ∅).2.1 pr < maxAttempts))).length = 0) := by
        rw [heq]
        omega
      rw [if_neg hside]
    · rw [if_neg hcap]
      have heq : ((issues.filterMap (·.pr_number)).filter (fun pr =>
          decide (pr ∉ (∅ : Finset Nat)) &&
            decide (bumpAttempts f
              (scanPRs maxAttempts counts worktrees f issues ∅).2.1 pr < maxAttempts))) = [] := by
        rw [List.filter_eq_nil_iff]
        intro pr hpr hcond
        rw [Bool.and_eq_true, decide_eq_true_eq, decide_eq_true_eq] at hcond
        have hb := hbump pr
        rw [if_pos hpr, hfc pr hpr] at hb
        omega
      have hside : (((issues.filterMap (·.pr_number)).filter (fun pr =>
          decide (pr ∉ (∅ : Finset Nat)) &&
            decide (bumpAttempts f
              (scanPRs maxAttempts counts worktrees f issues ∅).2.1 pr < maxAttempts))).length = 0) := by
        rw [heq]
        rfl
      rw [if_pos hside]
  · intro pr hpr
    have := hbump pr
    rw [if_pos hpr, hfc pr hpr] at this
    exact this

/-- Liveness workhorse: starting with no clean PR and every attempt counter
equal to `c`, if every poll observes a positive comment count on every
tracked PR, the loop exits `maxAttemptsExhausted` within
`maxAttempts - c + 1` polls, all counters having reached the cap. -/
theorem monitorLoop_liveness_aux (maxAttempts : Nat) (env : Nat → Nat → Nat)
    (worktrees : List Nat) (issues : List IssueInfo)
    (hne : issues.filterMap (·.pr_number) ≠ [])
    (hnd : (issues.filterMap (·.pr_number)).Nodup)
    (hwt : ∀ i ∈ issues, i.number ∈ worktrees)
    (hpos : ∀ k pr, pr ∈ issues.filterMap (·.pr_number) → 0 < env k pr) :
    ∀ fuel c pollIdx (f : Nat → Nat),
      maxAttempts ≤ c + fuel →
      (∀ pr ∈ issues.filterMap (·.pr_number), f pr = c) →
      ∃ s', monitorLoop maxAttempts env worktrees issues (fuel + 1) pollIdx ⟨∅, f⟩ =
          some (s', .maxAttemptsExhausted) ∧
        ∀ pr ∈ issues.filterMap (·.pr_number), maxAttempts ≤ s'.fixAttempts pr := by
  intro fuel
  induction fuel with
  | zero =>
      intro c pollIdx f hcf hfc
      refine ⟨⟨∅, f⟩, ?_, ?_⟩
      · rw [monitorLoop]
        rw [pollOnce_all_exhausted maxAttempts (env pollIdx) worktrees issues ⟨∅, f⟩ hne
          (Finset.empty_subset _)
          (by
            rcases List.exists_mem_of_ne_nil _ hne with ⟨pr, hpr⟩
            exact ⟨pr, hpr, Finset.not_mem_empty pr⟩)
          (fun pr hpr => Or.inr (by
            show maxAttempts ≤ f pr
            rw [hfc pr hpr]
            omega))]
      · intro pr hpr
        show maxAttempts ≤ f pr
        rw [hfc pr hpr]
        omega
  | succ fuel ih =>
      intro c pollIdx f hcf hfc
      by_cases hceil : maxAttempts ≤ c
      · refine ⟨⟨∅, f⟩, ?_, ?_⟩
        · rw [monitorLoop]
          rw [pollOnce_all_exhausted maxAttempts (env pollIdx) worktrees issues ⟨∅, f⟩ hne
            (Finset.empty_subset _)
            (by
              rcases List.exists_mem_of_ne_nil _ hne with ⟨pr, hpr⟩
              exact ⟨pr, hpr, Finset.not_mem_empty pr⟩)
            (fun pr hpr => Or.inr (by
              show maxAttempts ≤ f pr
              rw [hfc pr hpr]
              omega))]
        · intro pr hpr
          show maxAttempts ≤ f pr
          rw [hfc pr hpr]
          omega
      · obtain ⟨f', hpoll, hf'⟩ := pollOnce_dispatch maxAttempts (env pollIdx) worktrees
          issues f c hne hnd hwt (fun pr hpr => hpos pollIdx pr hpr) (by omega) hfc
        by_cases hcap : c + 1 < maxAttempts
        · rw [if_pos hcap] at hpoll
          obtain ⟨s', hloop, hs'⟩ := ih (c + 1) (pollIdx + 1) f' (by omega) hf'
          refine ⟨s', ?_, hs'⟩
          rw [monitorLoop, hpoll]
          exact hloop
        · rw [if_neg hcap] at hpoll
          refine ⟨⟨∅, f'⟩, ?_, ?_⟩
          · rw [monitorLoop, hpoll]
          · intro pr hpr
            show maxAttempts ≤ f' pr
            rw [hf' pr hpr]
            omega

/-- C6: the review monitor loop (i) exits reporting all-clean as soon as
every tracked PR is in the clean set; (ii) exits reporting exhaustion — not
silently retrying — as soon as every remaining non-clean PR has used up its
bounded fix attempts; and (iii) terminates: starting from a fresh monitoring
session over PRs whose comment counts never reach 0, every tracked PR ends
at the attempt cap (Exhausted) and the loop stops within
`maxAttempts + 1` polls instead of polling forever. -/
theorem c6_monitor_loop_exits (maxAttempts : Nat) (env : Nat → Nat → Nat)
    (worktrees : List Nat) (issues : List IssueInfo)
    (hne : issues.filterMap (·.pr_number) ≠ [])
    (hnd : (issues.filterMap (·.pr_number)).Nodup) :
    (∀ fuel pollIdx (s : MonitorState),
      (∀ pr ∈ issues.filterMap (·.pr_number), pr ∈ s.addressed) →
      monitorLoop maxAttempts env worktrees issues (fuel + 1) pollIdx s =
        some (s, .allClean)) ∧
    (∀ fuel pollIdx (s : MonitorState),
      s.addressed ⊆ (issues.filterMap (·.pr_number)).toFinset →
      (∃ pr ∈ issues.filterMap (·.pr_number), pr ∉ s.addressed) →
      (∀ pr ∈ issues.filterMap (·.pr_number),
        pr ∈ s.addressed ∨ maxAttempts ≤ s.fixAttempts pr) →
      monitorLoop maxAttempts env worktrees issues (fuel + 1) pollIdx s =
        some (s, .maxAttemptsExhausted)) ∧
    ((∀ i ∈ issues, i.number ∈ worktrees) →
      (∀ k pr, pr ∈ issues.filterMap (·.pr_number) → 0 < env k pr) →
      ∃ s', monitorLoop maxAttempts env worktrees issues (maxAttempts + 1) 0
          ⟨∅, fun _ => 0⟩ = some (s', .maxAttemptsExhausted) ∧
        ∀ pr ∈ issues.filterMap (·.pr_number), maxAttempts ≤ s'.fixAttempts pr) := by
  refine ⟨?_, ?_, ?_⟩
  · intro fuel pollIdx s hall
    rw [monitorLoop,
      pollOnce_all_clean maxAttempts (env pollIdx) worktrees issues s hne hnd hall]
  · intro fuel pollIdx s hsub hex hstuck
    rw [monitorLoop,
      pollOnce_all_exhausted maxAttempts (env pollIdx) worktrees issues s hne hsub hex hstuck]
  · intro hwt hpos
    exact monitorLoop_liveness_aux maxAttempts env worktrees issues hne hnd hwt hpos
      maxAttempts 0 0 (fun _ => 0) (by omega) (fun _ _ => rfl)

/-- A one-issue monitoring session used by the monitor witnesses: issue 7
tracked through PR 9. -/
def monIssues : List IssueInfo :=
  [{ number := 7, title := "t", status := "review", dependencies := [],
     base_branch := "main", pr_number := some 9 }]

/-- Witness for C2: PR 9, already at 3 recorded fix attempts (cap 5), is
observed with 0 comments and lands in the clean set. -/
theorem c2_clean_iff_observed_zero_witness :
    (9 : Nat) ∈ (scanPRs 5 (fun _ => 0) [7] (fun _ => 3) monIssues ∅).1 :=
  (c2_clean_iff_observed_zero 5 (fun _ => 0) [7] (fun _ => 3) monIssues ∅).2.2
    { number := 7, title := "t", status := "review", dependencies := [],
      base_branch := "main", pr_number := some 9 }
    (by decide) 9 rfl (by decide) (by decide) rfl

/-- Witness for C6 at a concrete one-PR session with attempt cap 2 and
comment counts pinned at 1. -/
theorem c6_monitor_loop_exits_witness :
    (monitorLoop 2 (fun _ _ => 1) [7] monIssues 1 0 ⟨{9}, fun _ => 0⟩ =
      some (⟨{9}, fun _ => 0⟩, .allClean)) ∧
    (monitorLoop 2 (fun _ _ => 1) [7] monIssues 1 0 ⟨∅, fun _ => 2⟩ =
      some (⟨∅, fun _ => 2⟩, .maxAttemptsExhausted)) ∧
    (∃ s', monitorLoop 2 (fun _ _ => 1) [7] monIssues 3 0 ⟨∅, fun _ => 0⟩ =
        some (s', .maxAttemptsExhausted) ∧
      ∀ pr ∈ monIssues.filterMap (·.pr_number), 2 ≤ s'.fixAttempts pr) := by
  have h := c6_monitor_loop_exits 2 (fun _ _ => 1) [7] monIssues (by decide) (by decide)
  exact ⟨h.1 0 0 ⟨{9}, fun _ => 0⟩ (by decide),
    h.2.1 0 0 ⟨∅, fun _ => 2⟩ (by decide) (by decide) (by decide),
    h.2.2 (by decide) (fun _ _ _ => Nat.one_pos)⟩

/-! ## Phased workflow coordinator (`EpicOrchestrator.start_development`,
`orchestrator.py`)

The automation agent is an external collaborator: `dispatch` stands for
`ClaudeSessionManager.run_parallel_tdd_workflows`, taking the phase's
`(worktree, issue)` tasks and returning their `WorkflowResult`s.  The Python
dicts `worktrees` and `existing_prs` are association lists; the `results`
dict is an association list with in-place update on existing keys. -/

/-- `WorkflowResult` dataclass from `models.py`; the float duration is
modelled as a rational. -/
structure WorkflowResult where
  issue_number : Nat
  success : Bool
  duration_seconds : ℚ
  error : Option String := none
  pr_number : Option Nat := none
  deriving DecidableEq, Repr

/-- `EpicPlan.get_phase_order`: `sorted(self.parallelization.keys())`. -/
def EpicPlan.get_phase_order (plan : EpicPlan) : List String :=
  (plan.parallelization.map (·.1)).mergeSort (· ≤ ·)

/-- `self.parallelization.get(phase_name, [])`. -/
def phaseNums (plan : EpicPlan) (phase_name : String) : List Nat :=
  ((plan.parallelization.find? (fun kv => kv.1 == phase_name)).map (·.2)).getD []

/-- `EpicPlan.get_issues_for_phase`: the plan's issues whose numbers sit in
the phase's issue-number list, in issue-list order. -/
def EpicPlan.get_issues_for_phase (plan : EpicPlan) (phase_name : String) :
    List IssueInfo :=
  plan.issues.filter (fun i => decide (i.number ∈ phaseNums plan phase_name))

/-- Python dict assignment `results[k] = v`: replaces in place when the key
exists, appends otherwise. -/
def dictInsert (m : List (Nat × WorkflowResult)) (k : Nat) (v : WorkflowResult) :
    List (Nat × WorkflowResult) :=
  if m.any (fun kv => kv.1 == k) then
    m.map (fun kv => if kv.1 == k then (k, v) else kv)
  else m ++ [(k, v)]

/-- The per-phase task-collection loop of `start_development`: issues without
a worktree are skipped silently; issues with an existing PR get an immediate
success result; the rest become `(worktree, issue)` dispatch tasks. -/
def phaseTasks (worktrees : List (Nat × String)) (existing_prs : List (Nat × Nat)) :
    List IssueInfo → List (Nat × WorkflowResult) →
    List (Nat × WorkflowResult) × List (String × Nat)
  | [], results => (results, [])
  | issue :: rest, results =>
    match (worktrees.find? (fun kv => kv.1 == issue.number)).map (·.2) with
    | none => phaseTasks worktrees existing_prs rest results
    | some wt =>
      match (existing_prs.find? (fun kv => kv.1 == issue.number)).map (·.2) with
      | some pr =>
        phaseTasks worktrees existing_prs rest
          (dictInsert results issue.number
            { issue_number := issue.number, success := true, duration_seconds := 0,
              pr_number := some pr })
      | none =>
        let res := phaseTasks worktrees existing_prs rest results
        (res.1, (wt, issue.number) :: res.2)

/-- The result-recording loop of `start_development`: each result is stored
under its issue number; the first failed result aborts the whole run
(`return results`), dropping any later results of the same phase. -/
def recordResults : List (Nat × WorkflowResult) → List WorkflowResult →
    List (Nat × WorkflowResult) × Bool
  | results, [] => (results, false)
  | results, r :: rest =>
    if r.success then recordResults (dictInsert results r.issue_number r) rest
    else (dictInsert results r.issue_number r, true)

/-- The phase loop of `start_development`, also returning the trace of
dispatched task batches.  An empty task list skips the dispatch
(`continue`); a failed result stops before any later phase. -/
def phasesLoop (dispatch : List (String × Nat) → List WorkflowResult)
    (plan : EpicPlan) (worktrees : List (Nat × String))
    (existing_prs : List (Nat × Nat)) :
    List String → List (Nat × WorkflowResult) → List (List (String × Nat)) →
    List (Nat × WorkflowResult) × List (List (String × Nat))
  | [], results, batches => (results, batches)
  | phase :: rest, results, batches =>
    match phaseTasks worktrees existing_prs (plan.get_issues_for_phase phase) results with
    | (results', tasks) =>
      if tasks.isEmpty then
        phasesLoop dispatch plan worktrees existing_prs rest results' batches
      else
        match recordResults results' (dispatch tasks) with
        | (results'', true) => (results'', batches ++ [tasks])
        | (results'', false) =>
          phasesLoop dispatch plan worktrees existing_prs rest results'' (batches ++ [tasks])

/-- `EpicOrchestrator.start_development`: phases in sorted order, one
bounded-concurrency dispatch per phase, fail-fast on the first failed
result.  Also returns the dispatched batches for analysis. -/
def start_development (dispatch : List (String × Nat) → List WorkflowResult)
    (plan : EpicPlan) (worktrees : List (Nat × String))
    (existing_prs : List (Nat × Nat)) :
    List (Nat × WorkflowResult) × List (List (String × Nat)) :=
  phasesLoop dispatch plan worktrees existing_prs plan.get_phase_order [] []

/-- An entry of `results[k] = v` is either an old entry or the new one. -/
theorem dictInsert_mem (m : List (Nat × WorkflowResult)) (k : Nat) (v : WorkflowResult) :
    ∀ e ∈ dictInsert m k v, e ∈ m ∨ e = (k, v) := by
  intro e he
  rw [dictInsert] at he
  by_cases hk : m.any (fun kv => kv.1 == k)
  · rw [if_pos hk] at he
    rcases List.mem_map.mp he with ⟨kv, hkv, hkve⟩
    by_cases hkk : kv.1 == k
    · rw [if_pos hkk] at hkve
      exact Or.inr hkve.symm
    · rw [if_neg hkk] at hkve
      exact Or.inl (hkve ▸ hkv)
  · rw [if_neg hk] at he
    rcases List.mem_append.mp he with h | h
    · exact Or.inl h
    · exact Or.inr (List.mem_singleton.mp h)

/-- Task collection: result entries are old ones or fresh success records
keyed by a number of the phase's issues; every task's issue number is one of
the phase's issue numbers. -/
theorem phaseTasks_spec (worktrees : List (Nat × String))
    (existing_prs : List (Nat × Nat)) (issues : List IssueInfo)
    (results : List (Nat × WorkflowResult)) :
    (∀ e ∈ (phaseTasks worktrees existing_prs issues results).1,
      e ∈ results ∨ (e.1 ∈ issues.map (·.number) ∧ e.2.success = true)) ∧
    (∀ t ∈ (phaseTasks worktrees existing_prs issues results).2,
      t.2 ∈ issues.map (·.number)) := by
  induction issues generalizing results with
  | nil =>
      exact ⟨fun e he => Or.inl he, fun t ht => absurd ht (List.not_mem_nil t)⟩
  | cons issue rest ih =>
      rw [phaseTasks]
      cases hwt : (worktrees.find? (fun kv => kv.1 == issue.number)).map (·.2) with
      | none =>
          refine ⟨fun e he => ?_, fun t ht => ?_⟩
          · rcases (ih results).1 e he with h | h
            · exact Or.inl h
            · exact Or.inr ⟨List.mem_cons_of_mem _ h.1, h.2⟩
          · exact List.mem_cons_of_mem _ ((ih results).2 t ht)
      | some wt =>
          cases hpr : (existing_prs.find? (fun kv => kv.1 == issue.number)).map (·.2) with
          | some pr =>
              refine ⟨fun e he => ?_, fun t ht => ?_⟩
              · rcases (ih _).1 e he with h | h
                · rcases dictInsert_mem results issue.number _ e h with h' | h'
                  · exact Or.inl h'
                  · refine Or.inr ⟨?_, ?_⟩
                    · rw [h']
                      exact List.mem_cons_self _ _ |> (List.mem_map.mpr ⟨issue, ·, rfl⟩)
                    · rw [h']
                · exact Or.inr ⟨List.mem_cons_of_mem _ h.1, h.2⟩
              · exact List.mem_cons_of_mem _ ((ih _).2 t ht)
          | none =>
              refine ⟨fun e he => ?_, fun t ht => ?_⟩
              · rcases (ih results).1 e he with h | h
                · exact Or.inl h
                · exact Or.inr ⟨List.mem_cons_of_mem _ h.1, h.2⟩
              · rcases List.mem_cons.mp ht with rfl | ht
                · exact List.mem_map.mpr ⟨issue, List.mem_cons_self _ _, rfl⟩
                · exact List.mem_cons_of_mem _ ((ih results).2 t ht)

/-- Result recording: entries are old ones or keyed by a dispatched result's
issue number; when the loop completed without failure, no failed entry was
added. -/
theorem recordResults_spec (results : List (Nat × WorkflowResult))
    (rs : List WorkflowResult) :
    (∀ e ∈ (recordResults results rs).1,
      e ∈ results ∨ e.1 ∈ rs.map (·.issue_number)) ∧
    ((recordResults results rs).2 = false →
      ∀ e ∈ (recordResults results rs).1, e ∈ results ∨ e.2.success = true) := by
  induction rs generalizing results with
  | nil => exact ⟨fun e he => Or.inl he, fun _ e he => Or.inl he⟩
  | cons r rest ih =>
      rw [recordResults]
      by_cases hs : r.success
      · rw [if_pos hs]
        refine ⟨fun e he => ?_, fun hf e he => ?_⟩
        · rcases (ih _).1 e he with h | h
          · rcases dictInsert_mem results r.issue_number r e h with h' | h'
            · exact Or.inl h'
            · exact Or.inr (by rw [h']; exact List.mem_map.mpr ⟨r, List.mem_cons_self _ _, rfl⟩)
          · exact Or.inr (List.mem_cons_of_mem _ h)
        · rcases (ih _).2 hf e he with h | h
          · rcases dictInsert_mem results r.issue_number r e h with h' | h'
            · exact Or.inl h'
            · exact Or.inr (by rw [h']; exact hs)
          · exact Or.inr h
      · rw [if_neg hs]
        refine ⟨fun e he => ?_, fun hf => ?_⟩
        · rcases dictInsert_mem results r.issue_number r e he with h' | h'
          · exact Or.inl h'
          · exact Or.inr (by rw [h']; exact List.mem_map.mpr ⟨r, List.mem_cons_self _ _, rfl⟩)
        · exact absurd hf (by simp)

/-- Issue numbers of the phases in `ps`, as visited by the phase loop. -/
def issuesOfPhases (plan : EpicPlan) (ps : List String) : List Nat :=
  (ps.map (fun p => (plan.get_issues_for_phase p).map (·.number))).flatten

/-- Invariant of the phase loop: the processed phases form a prefix `qs` of
the phase list; every result entry is inherited or keyed by an issue of a
processed phase; every dispatched batch is inherited or drawn from one
processed phase; and either no recorded result failed, or the failing
results all belong to the last processed phase — processing stopped there. -/
theorem phasesLoop_spec (dispatch : List (String × Nat) → List WorkflowResult)
    (plan : EpicPlan) (worktrees : List (Nat × String)) (existing_prs : List (Nat × Nat))
    (hdisp : ∀ batch, ∀ r ∈ dispatch batch, r.issue_number ∈ batch.map (·.2)) :
    ∀ (ps : List String) (results : List (Nat × WorkflowResult))
      (batches : List (List (String × Nat))),
      (∀ e ∈ results, e.2.success = true) →
      ∃ qs rs2, ps = qs ++ rs2 ∧
        (∀ e ∈ (phasesLoop dispatch plan worktrees existing_prs ps results batches).1,
          e ∈ results ∨ e.1 ∈ issuesOfPhases plan qs) ∧
        (∀ b ∈ (phasesLoop dispatch plan worktrees existing_prs ps results batches).2,
          b ∈ batches ∨ ∃ p ∈ qs, ∀ t ∈ b,
            t.2 ∈ (plan.get_issues_for_phase p).map (·.number)) ∧
        ((∀ e ∈ (phasesLoop dispatch plan worktrees existing_prs ps results batches).1,
            e.2.success = true) ∨
          ∃ qs0 p, qs = qs0 ++ [p] ∧
            ∀ e ∈ (phasesLoop dispatch plan worktrees existing_prs ps results batches).1,
              e.2.success = false →
                e.1 ∈ (plan.get_issues_for_phase p).map (·.number)) := by
  intro ps
  induction ps with
  | nil =>
      intro results batches hsucc
      refine ⟨[], [], rfl, ?_, ?_, ?_⟩
      · intro e he
        rw [phasesLoop] at he
        exact Or.inl he
      · intro b hb
        rw [phasesLoop] at hb
        exact Or.inl hb
      · left
        intro e he
        rw [phasesLoop] at he
        exact hsucc e he
  | cons phase rest ih =>
      intro results batches hsucc
      rcases hpt : phaseTasks worktrees existing_prs (plan.get_issues_for_phase phase) results
        with ⟨results', tasks⟩
      have hspec := phaseTasks_spec worktrees existing_prs
        (plan.get_issues_for_phase phase) results
      rw [hpt] at hspec
      have hsucc' : ∀ e ∈ results', e.2.success = true := by
        intro e he
        rcases hspec.1 e he with h | h
        · exact hsucc e h
        · exact h.2
      by_cases hemp : tasks.isEmpty
      · obtain ⟨qs, rs2, hdec, hR, hB, hF⟩ := ih results' batches hsucc'
        refine ⟨phase :: qs, rs2, by rw [hdec]; rfl, ?_, ?_, ?_⟩ <;>
          simp only [phasesLoop, hpt, if_pos hemp]
        · intro e he
          rcases hR e he with h | h
          · rcases hspec.1 e h with h' | h'
            · exact Or.inl h'
            · refine Or.inr ?_
              simp only [issuesOfPhases, List.map_cons, List.flatten_cons, List.mem_append]
              exact Or.inl h'.1
          · refine Or.inr ?_
            simp only [issuesOfPhases, List.map_cons, List.flatten_cons, List.mem_append]
            exact Or.inr h
        · intro b hb
          rcases hB b hb with h | ⟨p, hp, hpt'⟩
          · exact Or.inl h
          · exact Or.inr ⟨p, List.mem_cons_of_mem _ hp, hpt'⟩
        · rcases hF with h | ⟨qs0, p, hqs, h⟩
          · exact Or.inl h
          · exact Or.inr ⟨phase :: qs0, p, by rw [hqs]; rfl, h⟩
      · rcases hrec : recordResults results' (dispatch tasks) with ⟨results'', failed⟩
        have hrspec := recordResults_spec results' (dispatch tasks)
        rw [hrec] at hrspec
        have hkey : ∀ (n : Nat), n ∈ (dispatch tasks).map (·.issue_number) →
            n ∈ (plan.get_issues_for_phase phase).map (·.number) := by
          intro n hn
          rcases List.mem_map.mp hn with ⟨r, hr, hrn⟩
          subst hrn
          have := hdisp tasks r hr
          rcases List.mem_map.mp this with ⟨t, ht, htn⟩
          exact htn ▸ hspec.2 t ht
        cases failed with
        | true =>
            refine ⟨[phase], rest, rfl, ?_, ?_, ?_⟩ <;>
              simp only [phasesLoop, hpt, if_neg hemp, hrec]
            · intro e he
              rcases hrspec.1 e he with h | h
              · rcases hspec.1 e h with h' | h'
                · exact Or.inl h'
                · refine Or.inr ?_
                  simp only [issuesOfPhases, List.map_cons, List.map_nil,
                    List.flatten_cons, List.flatten_nil, List.append_nil]
                  exact h'.1
              · refine Or.inr ?_
                simp only [issuesOfPhases, List.map_cons, List.map_nil,
                  List.flatten_cons, List.flatten_nil, List.append_nil]
                exact hkey e.1 h
            · intro b hb
              rcases List.mem_append.mp hb with h | h
              · exact Or.inl h
              · rcases List.mem_singleton.mp h with rfl
                exact Or.inr ⟨phase, List.mem_singleton.mpr rfl, fun t ht => hspec.2 t ht⟩
            · refine Or.inr ⟨[], phase, rfl, ?_⟩
              intro e he hfail
              rcases hrspec.1 e he with h | h
              · rw [hsucc' e h] at hfail
                exact absurd hfail (by simp)
              · exact hkey e.1 h
        | false =>
            have hsucc'' : ∀ e ∈ results'', e.2.success = true := by
              intro e he
              rcases hrspec.2 rfl e he with h | h
              · exact hsucc' e h
              · exact h
            obtain ⟨qs, rs2, hdec, hR, hB, hF⟩ := ih results'' (batches ++ [tasks]) hsucc''
            refine ⟨phase :: qs, rs2, by rw [hdec]; rfl, ?_, ?_, ?_⟩ <;>
              simp only [phasesLoop, hpt, if_neg hemp, hrec]
            · intro e he
              rcases hR e he with h | h
              · rcases hrspec.1 e h with h' | h'
                · rcases hspec.1 e h' with h'' | h''
                  · exact Or.inl h''
                  · refine Or.inr ?_
                    simp only [issuesOfPhases, List.map_cons, List.flatten_cons,
                      List.mem_append]
                    exact Or.inl h''.1
                · refine Or.inr ?_
                  simp only [issuesOfPhases, List.map_cons, List.flatten_cons,
                    List.mem_append]
                  exact Or.inl (hkey e.1 h')
              · refine Or.inr ?_
                simp only [issuesOfPhases, List.map_cons, List.flatten_cons,
                  List.mem_append]
                exact Or.inr h
            · intro b hb
              rcases hB b hb with h | ⟨p, hp, hpt'⟩
              · rcases List.mem_append.mp h with h' | h'
                · exact Or.inl h'
                · rcases List.mem_singleton.mp h' with rfl
                  exact Or.inr ⟨phase, List.mem_cons_self _ _, fun t ht => hspec.2 t ht⟩
              · exact Or.inr ⟨p, List.mem_cons_of_mem _ hp, hpt'⟩
            · rcases hF with h | ⟨qs0, p, hqs, h⟩
              · exact Or.inl h
              · exact Or.inr ⟨phase :: qs0, p, by rw [hqs]; rfl, h⟩

/-- Issue numbers of a phase's issue objects are a subset of its phase-map
entry. -/
theorem issues_for_phase_subset (plan : EpicPlan) (p : String) :
    ∀ n ∈ (plan.get_issues_for_phase p).map (·.number), n ∈ phaseNums plan p := by
  intro n hn
  rcases List.mem_map.mp hn with ⟨i, hi, hin⟩
  have := (List.mem_filter.mp hi).2
  rw [← hin]
  simpa using this

/-- C5: under the plan invariant that distinct phases carry disjoint issue
sets, if the coordinator's returned map contains a failed result for an
issue of phase `k`, then no issue belonging to any phase after `k` was
dispatched in any batch and none has a result in the returned map — the run
stopped at phase `k`. -/
theorem c5_phase_failure_stops_run
    (dispatch : List (String × Nat) → List WorkflowResult) (plan : EpicPlan)
    (worktrees : List (Nat × String)) (existing_prs : List (Nat × Nat))
    (hdisp : ∀ batch, ∀ r ∈ dispatch batch, r.issue_number ∈ batch.map (·.2))
    (hnodup : plan.get_phase_order.Nodup)
    (hdisj : ∀ p p' n, p ≠ p' → n ∈ phaseNums plan p → n ∉ phaseNums plan p')
    (e : Nat × WorkflowResult)
    (he : e ∈ (start_development dispatch plan worktrees existing_prs).1)
    (hfail : e.2.success = false)
    (k k' : Nat) (hkk : k < k') (hk2 : k' < plan.get_phase_order.length)
    (hek : e.1 ∈ phaseNums plan (plan.get_phase_order.get ⟨k, lt_trans hkk hk2⟩)) :
    ∀ n ∈ phaseNums plan (plan.get_phase_order.get ⟨k', hk2⟩),
      (∀ e2 ∈ (start_development dispatch plan worktrees existing_prs).1, e2.1 ≠ n) ∧
      (∀ b ∈ (start_development dispatch plan worktrees existing_prs).2,
        n ∉ b.map (·.2)) := by
  obtain ⟨qs, rs2, hdec, hR, hB, hF⟩ := phasesLoop_spec dispatch plan worktrees
    existing_prs hdisp plan.get_phase_order [] []
    (fun e2 he2 => absurd he2 (List.not_mem_nil e2))
  rcases hF with hall | ⟨qs0, p, hqs, hloc⟩
  · exact absurd (hall e he) (by simp [hfail])
  have hepn : e.1 ∈ phaseNums plan p := issues_for_phase_subset plan p e.1 (hloc e he hfail)
  have hpk : p = plan.get_phase_order.get ⟨k, lt_trans hkk hk2⟩ := by
    by_contra hne
    exact (hdisj p _ e.1 hne hepn) hek
  have hdec' : plan.get_phase_order = qs0 ++ p :: rs2 := by
    rw [hdec, hqs]
    simp
  have hql : qs.length = qs0.length + 1 := by
    rw [hqs]
    simp
  have hlenlt : qs0.length < plan.get_phase_order.length := by
    rw [hdec']
    simp
  have hgetp : plan.get_phase_order.get ⟨qs0.length, hlenlt⟩ = p := by
    rw [List.get_of_eq hdec' ⟨qs0.length, hlenlt⟩]
    rw [List.get_eq_getElem]
    rw [List.getElem_append_right (le_refl _)]
    simp
  have hkeq : qs0.length = k := by
    have hinj := List.Nodup.get_inj_iff hnodup
      (i := ⟨qs0.length, hlenlt⟩) (j := ⟨k, lt_trans hkk hk2⟩)
    have : (⟨qs0.length, hlenlt⟩ : Fin plan.get_phase_order.length) =
        ⟨k, lt_trans hkk hk2⟩ := hinj.mp (by rw [hgetp, hpk])
    exact congrArg Fin.val this
  intro n hn
  have hnotin : n ∉ issuesOfPhases plan qs := by
    intro hmem
    simp only [issuesOfPhases, List.mem_flatten, List.mem_map] at hmem
    obtain ⟨l, ⟨q, hq, rfl⟩, hnl⟩ := hmem
    have hnq : n ∈ phaseNums plan q := issues_for_phase_subset plan q n hnl
    rcases List.mem_iff_get.mp hq with ⟨j, hj⟩
    have hjlt : (j : Nat) < plan.get_phase_order.length := by
      rw [hdec]
      have := j.isLt
      simp only [List.length_append]
      omega
    have hgetq : plan.get_phase_order.get ⟨j, hjlt⟩ = q := by
      rw [List.get_of_eq hdec ⟨j, hjlt⟩]
      rw [List.get_eq_getElem]
      rw [List.getElem_append_left j.isLt]
      rw [← hj]
      rfl
    have hqne : q ≠ plan.get_phase_order.get ⟨k', hk2⟩ := by
      intro hqeq
      have hinj := List.Nodup.get_inj_iff hnodup
        (i := ⟨j, hjlt⟩) (j := ⟨k', hk2⟩)
      have heqf : (⟨(j : Nat), hjlt⟩ : Fin plan.get_phase_order.length) = ⟨k', hk2⟩ :=
        hinj.mp (by rw [hgetq, hqeq])
      have hjval : (j : Nat) = k' := congrArg Fin.val heqf
      have := j.isLt
      omega
    exact (hdisj q _ n hqne hnq) hn
  refine ⟨?_, ?_⟩
  · intro e2 he2 hne2
    rcases hR e2 he2 with h | h
    · exact absurd h (List.not_mem_nil e2)
    · rw [hne2] at h
      exact hnotin h
  · intro b hb hnb
    rcases hB b hb with h | ⟨q, hq, hbt⟩
    · exact absurd h (List.not_mem_nil b)
    · rcases List.mem_map.mp hnb with ⟨t, ht, htn⟩
      refine hnotin ?_
      simp only [issuesOfPhases, List.mem_flatten, List.mem_map]
      exact ⟨(plan.get_issues_for_phase q).map (·.number), ⟨q, hq, rfl⟩, htn ▸ hbt t ht⟩

/-- A dispatcher that reports failure for every dispatched task — the
simplest adapter obeying the contract that results carry their task's issue
number. -/
def failDispatch : List (String × Nat) → List WorkflowResult :=
  fun batch => batch.map (fun t =>
    { issue_number := t.2, success := false, duration_seconds := 0,
      error := some "boom" })

/-- Worktrees for the C5 witness plan. -/
def forestWorktrees : List (Nat × String) :=
  [(101, "/opt/work/i-101"), (102, "/opt/work/i-102"), (103, "/opt/work/i-103")]

/-- The failing result `failDispatch` reports for issue 101. -/
def failResult101 : WorkflowResult :=
  { issue_number := 101, success := false, duration_seconds := 0, error := some "boom" }

theorem forestPlan_phase_order :
    forestPlan.get_phase_order = ["phase_1", "phase_2"] := by
  simp [EpicPlan.get_phase_order, forestPlan, List.mergeSort, List.merge]
  decide

theorem forestPlan_phaseNums (q : String) :
    phaseNums forestPlan q =
      if q = "phase_1" then [101] else if q = "phase_2" then [102, 103] else [] := by
  by_cases h1 : q = "phase_1"
  · subst h1
    rfl
  · by_cases h2 : q = "phase_2"
    · subst h2
      rfl
    · rw [if_neg h1, if_neg h2]
      have hb1 : (("phase_1" : String) == q) = false :=
        beq_eq_false_iff_ne.mpr (Ne.symm h1)
      have hb2 : (("phase_2" : String) == q) = false :=
        beq_eq_false_iff_ne.mpr (Ne.symm h2)
      simp [phaseNums, forestPlan, List.find?, hb1, hb2]

theorem forestPlan_disjoint :
    ∀ p p' n, p ≠ p' → n ∈ phaseNums forestPlan p → n ∉ phaseNums forestPlan p' := by
  intro p p' n hne h1 h2
  rw [forestPlan_phaseNums] at h1 h2
  by_cases hp1 : p = "phase_1" <;> by_cases hp2 : p = "phase_2" <;>
    by_cases hq1 : p' = "phase_1" <;> by_cases hq2 : p' = "phase_2" <;>
    simp_all

/-- The coordinator run of the C5 witness: phase_1 dispatches issue 101,
which fails, so the run stops with that single result and single batch. -/
theorem forest_run_eval :
    start_development failDispatch forestPlan forestWorktrees [] =
      ([(101, failResult101)], [[("/opt/work/i-101", 101)]]) := by
  show phasesLoop failDispatch forestPlan forestWorktrees []
    forestPlan.get_phase_order [] [] = _
  rw [forestPlan_phase_order]
  decide

/-- Witness for C5: with a failing dispatcher on the spec §8 plan, issue 102
(phase_2) never appears in the results nor in any dispatched batch. -/
theorem c5_phase_failure_stops_run_witness :
    (∀ e2 ∈ (start_development failDispatch forestPlan forestWorktrees []).1,
      e2.1 ≠ 102) ∧
    (∀ b ∈ (start_development failDispatch forestPlan forestWorktrees []).2,
      (102 : Nat) ∉ b.map (·.2)) := by
  have hk2 : 1 < forestPlan.get_phase_order.length := by
    rw [forestPlan_phase_order]
    decide
  have hdisp : ∀ batch, ∀ r ∈ failDispatch batch,
      r.issue_number ∈ batch.map (·.2) := by
    intro batch r hr
    rcases List.mem_map.mp hr with ⟨t, ht, rfl⟩
    exact List.mem_map.mpr ⟨t, ht, rfl⟩
  have hnodup : forestPlan.get_phase_order.Nodup := by
    rw [forestPlan_phase_order]
    decide
  have he : (101, failResult101) ∈
      (start_development failDispatch forestPlan forestWorktrees []).1 := by
    rw [forest_run_eval]
    decide
  have hek : (101 : Nat) ∈ phaseNums forestPlan
      (forestPlan.get_phase_order.get ⟨0, lt_trans Nat.zero_lt_one hk2⟩) := by
    rw [List.get_of_eq forestPlan_phase_order]
    rw [forestPlan_phaseNums]
    simp
  have hn : (102 : Nat) ∈ phaseNums forestPlan
      (forestPlan.get_phase_order.get ⟨1, hk2⟩) := by
    rw [List.get_of_eq forestPlan_phase_order]
    rw [forestPlan_phaseNums]
    simp
  exact c5_phase_failure_stops_run failDispatch forestPlan forestWorktrees [] hdisp
    hnodup forestPlan_disjoint _ he rfl 0 1 Nat.zero_lt_one hk2 hek 102 hn

/-! ## Post-dispatch validation
(`ClaudeSessionManager._validate_workflow_execution`, `claude_automation.py`)

The function's git observations are an explicit input: `log_nonempty` is
whether `git log --oneline -5` printed anything (note: this is the
worktree's history, which includes the base branch's commits — it is *not*
a count of commits beyond the base reference), `status_entries` are the
parsed `git status --short` lines as `(status code, filename)` pairs (the
source's `line.split(maxsplit=1)`), and `autocommit_ok` is whether the
`git add`/`git commit` of test-documentation files succeeded. -/

/-- `fnmatch.fnmatch` for the patterns the validator uses (`*` matches any
sequence of characters including separators, `?` any single character; no
character classes appear in the pattern lists). -/
def fnmatchList : List Char → List Char → Bool
  | [], [] => true
  | [], _ :: _ => false
  | '*' :: ps, [] => fnmatchList ps []
  | '*' :: ps, c :: cs => fnmatchList ps (c :: cs) || fnmatchList ('*' :: ps) cs
  | '?' :: ps, _ :: cs => fnmatchList ps cs
  | _ :: _, [] => false
  | p :: ps, c :: cs => (p == c) && fnmatchList ps cs
termination_by ps s => (ps.length, s.length)

/-- `fnmatch.fnmatch(filename, pattern)`. -/
def fnmatch (filename pattern : String) : Bool :=
  fnmatchList pattern.data filename.data

/-- `temp_patterns`: transient files allowed to stay uncommitted. -/
def temp_patterns : List String :=
  ["verify_*.py", "test_*.tmp", "debug_*.py", "temp_*.py", "*.pyc",
   "__pycache__/*", ".pytest_cache/*", "*.log", "*.swp", "*~", ".DS_Store"]

/-- `test_doc_patterns`: documentation artefacts to auto-commit. -/
def test_doc_patterns : List String :=
  ["tests/RUN_TESTS_*.md", "tests/TEST_SUMMARY_*.md", "tests/*_tdd_plan.md",
   "tests/*_TEST_SUMMARY.md"]

/-- What the validator can observe of the worktree via git. -/
structure GitView where
  log_nonempty : Bool
  status_entries : List (String × String)
  autocommit_ok : Bool
  deriving DecidableEq, Repr

/-- The classification loop over status lines: transient files are ignored,
test-documentation files collected for auto-commit, everything else is
problematic. -/
def classifyFiles : List (String × String) → List String × List (String × String)
  | [] => ([], [])
  | (st, fname) :: rest =>
    let res := classifyFiles rest
    if temp_patterns.any (fun p => fnmatch fname p) then res
    else if test_doc_patterns.any (fun p => fnmatch fname p) then
      (fname :: res.1, res.2)
    else (res.1, (st, fname) :: res.2)

/-- `_validate_workflow_execution`: duration gate, `git log` gate, then the
working-tree gate with the transient allow-list, auto-committing test
documentation (re-adding it as problematic when the auto-commit fails). -/
def validate_workflow_execution (g : GitView) (duration : ℚ) : Bool × String :=
  if duration < 30 then
    (false, "Workflow completed too quickly - likely failed silently without doing any work")
  else if !g.log_nonempty then
    (false, "No commits created - workflow did not execute any development work")
  else if g.status_entries.isEmpty then (true, "")
  else
    let res := classifyFiles g.status_entries
    let problematic := if !res.1.isEmpty && !g.autocommit_ok then
        res.2 ++ res.1.map (fun f => ("??", f)) else res.2
    if !problematic.isEmpty then
      (false, "Uncommitted changes detected - workflow incomplete")
    else (true, "")

/-- C3: the claim's condition (ii) — "new commits exist beyond the unit's
base reference" — is not what the code checks.  The code's second gate runs
`git log --oneline -5`, which lists the worktree's history including the
base branch's commits; in a worktree freshly branched from a non-empty base
reference with zero new commits, that log is non-empty, and a long enough,
clean, agent-reported success passes validation.  This theorem evaluates the
embedded validator at that failing input: it returns success even though no
new commits exist beyond the base. -/
theorem c3_validation_accepts_no_new_commits :
    validate_workflow_execution
      { log_nonempty := true, status_entries := [], autocommit_ok := true } 120 =
      (true, "") := by
  decide

/-! ## Workspace lifecycle (`WorkspaceManager`, `workspace_manager.py`, and
the `epic cleanup` command body, `cli.py`)

Git is the external collaborator; the state of one issue's worktree and
branch is captured explicitly, and every git invocation that can change it
is recorded in an action trace.  The happy-path assumption that a forced
`git worktree remove`, `git branch -D` and `git worktree add` succeed is
irrelevant to the claims proved here, which exercise the reuse, dirty-error
and cleanup paths. -/

/-- The git state observable/mutable through one issue's canonical worktree
path and branch name. -/
structure WorktreeState where
  worktree_exists : Bool
  commit_count : Nat
  clean : Bool
  branch_exists : Bool
  deriving DecidableEq, Repr

/-- Git invocations `create_or_reuse_worktree`/`cleanup_worktree` can
perform. -/
inductive GitAction where
  | pruneWorktrees
  | removeWorktree
  | deleteBranch
  | createWorktree
  | trackGraphite
  deriving DecidableEq, Repr

/-- Actions the idempotence/no-destruction claims forbid: workspace
removal, branch deletion, and (re)creation.  Pruning stale bookkeeping and
the best-effort Graphite tracking are not destructive. -/
def GitAction.disruptive : GitAction → Bool
  | .removeWorktree => true
  | .deleteBranch => true
  | .createWorktree => true
  | _ => false

/-- The canonical worktree path
`{work_base_path}/{instance}-epic-{epic}/issue-{issue}`. -/
def worktreePath (instance_name : String) (epic_num issue_num : Nat) : String :=
  "/opt/work/" ++ instance_name ++ "-epic-" ++ toString epic_num ++
    "/issue-" ++ toString issue_num

/-- `WorkspaceManager.create_or_reuse_worktree`: prune, then reuse / error /
recreate depending on the existing worktree's commits and cleanliness, then
delete a stale branch if needed and create a fresh worktree.  Returns the
result (path or the blocking error), the final git state, and the action
trace. -/
def create_or_reuse_worktree (instance_name : String) (epic_num issue_num : Nat)
    (s : WorktreeState) : Except String String × WorktreeState × List GitAction :=
  let path := worktreePath instance_name epic_num issue_num
  if s.worktree_exists then
    if s.commit_count = 0 then
      -- failed previous run: force-remove, drop a leftover branch, recreate
      let afterRemove : WorktreeState :=
        { s with worktree_exists := false }
      let branchActs : List GitAction :=
        if afterRemove.branch_exists then [.deleteBranch] else []
      (.ok path,
       { worktree_exists := true, commit_count := 0, clean := true,
         branch_exists := true },
       [.pruneWorktrees, .removeWorktree] ++ branchActs ++
         [.createWorktree, .trackGraphite])
    else if s.clean then
      (.ok path, s, [.pruneWorktrees])
    else
      (.error ("Worktree " ++ path ++ " has uncommitted changes. Commit or stash changes before retrying epic, or run epic-mgr epic cleanup --force"),
       s, [.pruneWorktrees])
  else if s.branch_exists then
    (.ok path,
     { worktree_exists := true, commit_count := 0, clean := true,
       branch_exists := true },
     [.pruneWorktrees, .deleteBranch, .createWorktree, .trackGraphite])
  else
    (.ok path,
     { worktree_exists := true, commit_count := 0, clean := true,
       branch_exists := true },
     [.pruneWorktrees, .createWorktree, .trackGraphite])

/-- C7: acquisition is idempotent on a reusable workspace — when the
worktree exists with at least one commit beyond trunk and a clean tree, the
call returns the canonical path, leaves the git state untouched and performs
no destructive action (only the prune of stale bookkeeping), and a second
identical call returns exactly the same outcome. -/
theorem c7_acquire_idempotent (instance_name : String) (epic_num issue_num : Nat)
    (s : WorktreeState) (hex : s.worktree_exists = true)
    (hc : 0 < s.commit_count) (hcl : s.clean = true) :
    (create_or_reuse_worktree instance_name epic_num issue_num s).1 =
      .ok (worktreePath instance_name epic_num issue_num) ∧
    (create_or_reuse_worktree instance_name epic_num issue_num s).2.1 = s ∧
    (∀ a ∈ (create_or_reuse_worktree instance_name epic_num issue_num s).2.2,
      a.disruptive = false) ∧
    create_or_reuse_worktree instance_name epic_num issue_num
        ((create_or_reuse_worktree instance_name epic_num issue_num s).2.1) =
      create_or_reuse_worktree instance_name epic_num issue_num s := by
  have hc0 : ¬ s.commit_count = 0 := by omega
  refine ⟨?_, ?_, ?_, ?_⟩ <;>
    simp only [create_or_reuse_worktree, hex, if_pos, if_neg hc0, hcl, if_true]
  · intro a ha
    rcases List.mem_singleton.mp ha with rfl
    rfl

/-- Witness for C7 at a clean one-commit workspace. -/
theorem c7_acquire_idempotent_witness :
    (create_or_reuse_worktree "kb" 1 5
      { worktree_exists := true, commit_count := 1, clean := true,
        branch_exists := true }).1 = .ok (worktreePath "kb" 1 5) ∧
    (create_or_reuse_worktree "kb" 1 5
      { worktree_exists := true, commit_count := 1, clean := true,
        branch_exists := true }).2.1 =
      { worktree_exists := true, commit_count := 1, clean := true,
        branch_exists := true } ∧
    (∀ a ∈ (create_or_reuse_worktree "kb" 1 5
      { worktree_exists := true, commit_count := 1, clean := true,
        branch_exists := true }).2.2, a.disruptive = false) ∧
    create_or_reuse_worktree "kb" 1 5
        ((create_or_reuse_worktree "kb" 1 5
          { worktree_exists := true, commit_count := 1, clean := true,
            branch_exists := true }).2.1) =
      create_or_reuse_worktree "kb" 1 5
        { worktree_exists := true, commit_count := 1, clean := true,
          branch_exists := true } :=
  c7_acquire_idempotent "kb" 1 5 _ (by decide) (by decide) (by decide)

/-- C8: acquisition on a committed but dirty workspace raises the blocking
"uncommitted changes" error and touches nothing: the git state is unchanged
and no destructive action is performed — the workspace, its branch and its
uncommitted changes survive. -/
theorem c8_acquire_dirty_blocks (instance_name : String) (epic_num issue_num : Nat)
    (s : WorktreeState) (hex : s.worktree_exists = true)
    (hc : 0 < s.commit_count) (hdirty : s.clean = false) :
    (create_or_reuse_worktree instance_name epic_num issue_num s).1 =
      .error ("Worktree " ++ worktreePath instance_name epic_num issue_num ++ " has uncommitted changes. Commit or stash changes before retrying epic, or run epic-mgr epic cleanup --force") ∧
    (create_or_reuse_worktree instance_name epic_num issue_num s).2.1 = s ∧
    (∀ a ∈ (create_or_reuse_worktree instance_name epic_num issue_num s).2.2,
      a.disruptive = false) := by
  have hc0 : ¬ s.commit_count = 0 := by omega
  refine ⟨?_, ?_, ?_⟩ <;>
    simp only [create_or_reuse_worktree, hex, if_pos, if_neg hc0, hdirty,
      Bool.false_eq_true, if_false]
  · intro a ha
    rcases List.mem_singleton.mp ha with rfl
    rfl

/-- Witness for C8 at a dirty one-commit workspace. -/
theorem c8_acquire_dirty_blocks_witness :
    (create_or_reuse_worktree "kb" 1 5
      { worktree_exists := true, commit_count := 1, clean := false,
        branch_exists := true }).1 =
      .error ("Worktree " ++ worktreePath "kb" 1 5 ++ " has uncommitted changes. Commit or stash changes before retrying epic, or run epic-mgr epic cleanup --force") ∧
    (create_or_reuse_worktree "kb" 1 5
      { worktree_exists := true, commit_count := 1, clean := false,
        branch_exists := true }).2.1 =
      { worktree_exists := true, commit_count := 1, clean := false,
        branch_exists := true } ∧
    (∀ a ∈ (create_or_reuse_worktree "kb" 1 5
      { worktree_exists := true, commit_count := 1, clean := false,
        branch_exists := true }).2.2, a.disruptive = false) :=
  c8_acquire_dirty_blocks "kb" 1 5 _ (by decide) (by decide) (by decide)

/-- `WorkspaceManager.cleanup_worktree`: returns True for a non-existent
path without touching git; otherwise needs the base repository
(`base_repo_found`) and runs `git worktree remove [--force]`, whose outcome
is the environment input `git_remove_ok` — True removes the worktree, False
leaves it in place. -/
def cleanup_worktree (s : WorktreeState) (base_repo_found git_remove_ok : Bool) :
    Bool × WorktreeState × List GitAction :=
  if !s.worktree_exists then (true, s, [])
  else if !base_repo_found then (false, s, [])
  else if git_remove_ok then
    (true, { s with worktree_exists := false }, [.removeWorktree])
  else (false, s, [.removeWorktree])

/-- The per-issue body of the `epic cleanup` command (`cli.py`): skip issues
without a recorded path or whose directory is gone; skip worktrees with
commits unless `--force`; otherwise call `cleanup_worktree` and, on success,
clear the recorded worktree path on the issue.  Returns the updated issue,
the git state, the action trace, and whether the worktree was counted
cleaned. -/
def cleanup_issue_step (issue : IssueInfo) (s : WorktreeState) (force : Bool)
    (base_repo_found git_remove_ok : Bool) :
    IssueInfo × WorktreeState × List GitAction × Bool :=
  match issue.worktree_path with
  | none => (issue, s, [], false)
  | some _ =>
    if !s.worktree_exists then (issue, s, [], false)
    else if 0 < s.commit_count ∧ force = false then (issue, s, [], false)
    else
      let res := cleanup_worktree s base_repo_found git_remove_ok
      if res.1 then
        ({ issue with worktree_path := none }, res.2.1, res.2.2, true)
      else (issue, res.2.1, res.2.2, false)

/-- C9: for a recorded, existing workspace, cleanup removes the workspace
exactly when it has zero commits beyond trunk or `--force` is given —
"only if" holds unconditionally, and "if" holds whenever the invoked git
removal succeeds (`git_remove_ok`; the source treats a failing removal as an
error count, not a removal) — and whenever the removal succeeds the recorded
worktree path on the owning issue is cleared. -/
theorem c9_cleanup_iff (issue : IssueInfo) (s : WorktreeState) (force : Bool)
    (base_repo_found git_remove_ok : Bool)
    (hrec : issue.worktree_path ≠ none) (hex : s.worktree_exists = true)
    (hbase : base_repo_found = true) :
    ((cleanup_issue_step issue s force base_repo_found git_remove_ok).2.1.worktree_exists
        = false → (s.commit_count = 0 ∨ force = true)) ∧
    (git_remove_ok = true →
      ((cleanup_issue_step issue s force base_repo_found git_remove_ok).2.1.worktree_exists
          = false ↔ (s.commit_count = 0 ∨ force = true))) ∧
    ((cleanup_issue_step issue s force base_repo_found git_remove_ok).2.1.worktree_exists
        = false →
      (cleanup_issue_step issue s force base_repo_found git_remove_ok).1.worktree_path
        = none) := by
  rcases hwp : issue.worktree_path with _ | wp
  · exact absurd hwp hrec
  subst hbase
  simp only [cleanup_issue_step, hwp, hex, Bool.not_true, Bool.false_eq_true, if_false]
  by_cases hskip : 0 < s.commit_count ∧ force = false
  · simp only [if_pos hskip, hex]
    refine ⟨?_, ?_, ?_⟩
    · intro h
      exact absurd h (by simp [hex])
    · intro _
      constructor
      · intro h
        exact absurd h (by simp [hex])
      · intro h
        rcases h with h | h
        · omega
        · rw [h] at hskip
          exact absurd hskip.2 (by simp)
    · intro h
      exact absurd h (by simp [hex])
  · simp only [if_neg hskip]
    simp only [cleanup_worktree, hex, Bool.not_true, Bool.false_eq_true, if_false,
      Bool.not_true, if_true]
    have hcf : s.commit_count = 0 ∨ force = true := by
      by_cases hf : force = true
      · exact Or.inr hf
      · left
        have hff : force = false := by
          cases force
          · rfl
          · exact absurd rfl hf
        by_contra hc
        exact hskip ⟨by omega, hff⟩
    cases git_remove_ok with
    | true =>
        simp only [if_pos rfl]
        refine ⟨fun _ => hcf, fun _ => ⟨fun _ => hcf, fun _ => rfl⟩, fun _ => rfl⟩
    | false =>
        simp only [Bool.false_eq_true, if_false]
        refine ⟨?_, ?_, ?_⟩
        · intro h
          exact absurd h (by simp [hex])
        · intro h
          exact absurd h (by simp)
        · intro h
          exact absurd h (by simp [hex])

/-- Witness for C9: recorded, existing, zero-commit workspace without
force — the cleanup removes it and clears the recorded path. -/
theorem c9_cleanup_iff_witness :
    (((cleanup_issue_step
        { number := 5, title := "t", status := "pending", dependencies := [],
          base_branch := "main", worktree_path := some "/opt/work/kb-epic-1/issue-5" }
        { worktree_exists := true, commit_count := 0, clean := true,
          branch_exists := true } false true true).2.1.worktree_exists = false →
      ((0 : Nat) = 0 ∨ false = true)) ∧
     (true = true →
       ((cleanup_issue_step
          { number := 5, title := "t", status := "pending", dependencies := [],
            base_branch := "main", worktree_path := some "/opt/work/kb-epic-1/issue-5" }
          { worktree_exists := true, commit_count := 0, clean := true,
            branch_exists := true } false true true).2.1.worktree_exists = false ↔
        ((0 : Nat) = 0 ∨ false = true))) ∧
     ((cleanup_issue_step
        { number := 5, title := "t", status := "pending", dependencies := [],
          base_branch := "main", worktree_path := some "/opt/work/kb-epic-1/issue-5" }
        { worktree_exists := true, commit_count := 0, clean := true,
          branch_exists := true } false true true).2.1.worktree_exists = false →
      (cleanup_issue_step
        { number := 5, title := "t", status := "pending", dependencies := [],
          base_branch := "main", worktree_path := some "/opt/work/kb-epic-1/issue-5" }
        { worktree_exists := true, commit_count := 0, clean := true,
          branch_exists := true } false true true).1.worktree_path = none)) :=
  c9_cleanup_iff
    { number := 5, title := "t", status := "pending", dependencies := [],
      base_branch := "main", worktree_path := some "/opt/work/kb-epic-1/issue-5" }
    { worktree_exists := true, commit_count := 0, clean := true,
      branch_exists := true } false true true (by decide) (by decide) (by decide)
